import Mathlib

/-!
Verification of the hub.js reactive core (Key-Value Observing in
`src/mixins/observable.js`) and of the Store / nested EditingContext layer,
against the repository's natural-language specification.

The embedding is shallow: JavaScript values become an inductive `JSVal`,
an observable object's `_kvo_*` bookkeeping becomes a Lean structure `Obj`,
and each method of the `hub.Observable` mixin becomes a Lean function that
returns the updated object together with a trace of the externally visible
events (descriptor invocations and observer notifications).  Observer
callbacks are opaque in this model: invoking one records a trace event and
has no further effect on the object, which matches the source's behaviour
for observers that do not re-enter `set`.
-/

namespace Hub

/-- A JavaScript value as far as the KVO core inspects one: `undefined`,
`null`, numbers (integers suffice for the claims; no floating point is
involved), strings, booleans, plain (non-descriptor) function references
identified by an id, and plain object references identified by an id.
The receiver object itself is `.obj 0`. -/
inductive JSVal where
  | undef
  | null
  | num (n : Int)
  | str (s : String)
  | bool (b : Bool)
  | fnv (id : Nat)
  | obj (id : Nat)
  deriving DecidableEq, Repr

/-- JavaScript truthiness: `undefined`, `null`, `0`, `""` and `false` are
falsy; every other value (including every function and object) is truthy. -/
def JSVal.truthy : JSVal → Bool
  | .undef => false
  | .null => false
  | .num n => n != 0
  | .str s => s ≠ ""
  | .bool b => b
  | .fnv _ => true
  | .obj _ => true

/-- A computed-property descriptor: a callable marked `isProperty` carrying
the metadata the mixin reads (`isCacheable`, `isVolatile`, `cacheKey`,
`lastSetValueKey`).  The function body is user code and is modelled as a
pure function of `(key, value)`; a `get` invokes it with `value = undefined`.
`fnId` is the function's identity (used only where the source compares or
stores the function value itself). -/
structure Desc where
  fn : String → JSVal → JSVal
  isCacheable : Bool
  isVolatile : Bool
  cacheKey : String
  lastSetValueKey : String
  fnId : Nat

/-- What an object stores under a property name: either a plain value
(`this[key]` when it is not a computed property; `.val .undef` is an absent
property) or a computed-property descriptor. -/
inductive JSProp where
  | val (v : JSVal)
  | descr (d : Desc)

/-- The value seen when a property is read with a raw `this[key]` access
(as opposed to `get()`): a descriptor is a function value. -/
def JSProp.asVal : JSProp → JSVal
  | .val v => v
  | .descr d => .fnv d.fnId

/-- One entry of a per-key ObserverSet as `getMembers()` exposes it:
the quadruple `[target, method, context, lastNotifiedRevision]`.
`target = none` is the `null` the source stores when the target is the
receiver itself. -/
structure Member where
  target : Option JSVal
  method : JSVal
  context : Option Nat
  lastNotified : Nat
  deriving DecidableEq, Repr

/-- Externally visible events of one operation, in order of occurrence:
a computed-property descriptor invoked with `(key, value)`; a per-key
ObserverSet member notified; a local observer (method-name string) fired;
a star observer fired; the `propertyObserver` hook fired. -/
inductive Event where
  | descrInvoke (key : String) (value : JSVal)
  | memberFire (key : String) (target : Option JSVal) (method : JSVal)
      (context : Option Nat) (rev : Nat)
  | localFire (key : String) (name : String)
  | starFire (key : String) (target : Option JSVal) (method : JSVal)
  | hookFire (key : String) (rev : Nat)
  deriving DecidableEq, Repr

/-- `hub.CoreSet` as the mixin uses it for `_kvo_changes`: an ordered,
duplicate-free list.  `add` appends when absent, `pop` removes the last
element (LIFO). -/
def coreAdd (l : List String) (k : String) : List String :=
  if k ∈ l then l else l ++ [k]

/-- `CoreSet.addEach`. -/
def coreAddEach (l : List String) (ks : List String) : List String :=
  ks.foldl coreAdd l

/-- An observable object: its properties together with the `_kvo_*`
bookkeeping the `hub.Observable` mixin keeps on it.

* `props` — the object's own properties (`this[key]`).
* `cache` — `_hub_kvo_cache`; `none` when the cache object has not been
  created yet.  A slot holding `.undef` is indistinguishable from an absent
  slot, exactly as in JavaScript.
* `cacheable` — `_hub_kvo_cacheable`.
* `cachedep` — `_hub_kvo_cachedep`, the memo of `_hub_kvo_computeCachedDependentsFor`:
  association list from key to `none` (the source's `null`, "no cacheable
  dependents") or `some q` (the array of cacheable descriptors); a key
  absent from the list has not been computed yet (`undefined`).
* `dependents` — `_hub_kvo_dependents` as an association list
  (key depended on ↦ keys that depend on it).
* `revision` — `_hub_kvo_revision` (starts at 0).
* `propertyRevision` — the `propertyRevision` counter (starts at 1).
* `changeLevel` — `_hub_kvo_changeLevel`.
* `changes` — `_hub_kvo_changes`; `none` is the source's `null`.
* `observers k` — the members of the per-key ObserverSet
  `_kvo_observers_k` (an absent set and an empty one behave alike).
* `localObs k` — the `_kvo_local_k` list of method-name strings.
* `observedKeys` — `_kvo_observed_keys`.
* `hasPropertyObserverHook` — whether `this.propertyObserver` is defined.
* `suspended` — the process-wide `hub.ObserverQueue.isObservingSuspended`
  counter viewed as a flag; the mixin only reads it, so it is carried here.
* `chains` — the `(key, masterMethod)` pairs of chain observers created for
  dotted keys; recorded for bookkeeping only (ChainObserver internals are
  outside the claims and are not modelled).

The copy-on-first-write `_hub_kvo_for` cloning exists to protect prototype
sharing; this value-semantics embedding has no sharing, so the cloning is
the identity here. -/
structure Obj where
  props : String → JSProp
  cache : Option (String → JSVal)
  cacheable : Bool
  cachedep : List (String × Option (List Desc))
  dependents : List (String × List String)
  revision : Nat
  propertyRevision : Nat
  changeLevel : Nat
  changes : Option (List String)
  observers : String → List Member
  localObs : String → List String
  observedKeys : List String
  hasPropertyObserverHook : Bool
  suspended : Bool
  chains : List (String × JSVal)

/-- Read a cache slot: absent cache and absent slot both read `undefined`. -/
def Obj.cacheGet (o : Obj) (k : String) : JSVal :=
  match o.cache with
  | none => .undef
  | some c => c k

/-- Write a cache slot, creating the cache object when missing
(the source's `if (!cache) cache = this._hub_kvo_cache = {}`). -/
def Obj.cacheSet (o : Obj) (k : String) (v : JSVal) : Obj :=
  let c := fun k' => if k' = k then v else o.cacheGet k'
  { o with cache := some c }

/-- Ensure `_hub_kvo_cache` exists without writing a slot. -/
def Obj.ensureCache (o : Obj) : Obj :=
  match o.cache with
  | none => { o with cache := some fun _ => .undef }
  | some _ => o

/-- Look a key up in `_hub_kvo_dependents` (absent key ↦ no dependents). -/
def depLookup (deps : List (String × List String)) (k : String) :
    List String :=
  match deps.find? (fun p => p.1 = k) with
  | some p => p.2
  | none => []

/-- Total number of dependent-key edges declared on the object; used to
size the fuel of the two loops that walk the dependent-key graph. -/
def Obj.depSize (o : Obj) : Nat :=
  (o.dependents.map (fun p => p.2.length)).sum

/-- `_hub_kvo_addCachedDependents` (observable.js:528): walk the dependent
keys of a key (the source iterates each array from its end), pushing every
cacheable computed-property descriptor met, and recurse into that key's own
dependents.  The source adds each key to a `seen` set but never consults
it, so a user-declared cycle makes it loop forever; here the recursion
depth is bounded by `fuel`, and the fuel the callers pass is sufficient for
every acyclic graph.  The list argument is in iteration order (already
reversed by the caller). -/
def addCachedDeps (o : Obj) : Nat → List Desc → List String → List Desc
  | _, q, [] => q
  | fuel, q, key :: rest =>
      let q1 := match o.props key with
        | .descr d =>
            let q' := if d.isCacheable then q ++ [d] else q
            let deps := depLookup o.dependents key
            if deps.isEmpty then q'
            else match fuel with
              | 0 => q'
              | f + 1 => addCachedDeps o f q' deps.reverse
        | .val _ => q
      addCachedDeps o fuel q1 rest
  termination_by fuel _ l => (fuel, l.length)

/-- `_hub_kvo_computeCachedDependentsFor` (observable.js:560): compute the
cacheable descriptors transitively reachable through `dependents[key]` and
memoize the result in `_hub_kvo_cachedep` — `null` (`some (key, none)`
here) when there are none. -/
def computeCachedDependentsFor (o : Obj) (key : String) :
    Obj × Option (List Desc) :=
  let keys := depLookup o.dependents key
  if keys.isEmpty then
    ({ o with cachedep := (key, none) :: o.cachedep }, none)
  else
    let queue := addCachedDeps o (o.depSize + 1) [] keys.reverse
    let memo : Option (List Desc) := if queue.isEmpty then none else some queue
    ({ o with cachedep := (key, memo) :: o.cachedep }, memo)

/-- The cached-dependents lookup both `set` and `propertyDidChange`
perform: use the memo when present, else compute and memoize. -/
def cachedDependentsFor (o : Obj) (key : String) : Obj × Option (List Desc) :=
  match o.cachedep.find? (fun p => p.1 = key) with
  | some p => (o, p.2)
  | none => computeCachedDependentsFor o key

/-- Clear the `cacheKey` and `lastSetValueKey` cache slots of every
descriptor in a cached-dependents queue (the `while(--idx>=0)` loops of
observable.js:283–289 and 438–444). -/
def clearDescCaches (o : Obj) (q : List Desc) : Obj :=
  q.foldl (fun o d => (o.cacheSet d.cacheKey .undef).cacheSet d.lastSetValueKey .undef) o

/-- The dependent-cache clearing step shared by `set` (observable.js:274)
and `propertyDidChange` (observable.js:433), guarded by
`this._hub_kvo_cacheable && this._hub_kvo_cache`. -/
def clearCachedDependentsStep (o : Obj) (key : String) : Obj :=
  if o.cacheable ∧ o.cache.isSome then
    let r := cachedDependentsFor o key
    match r.2 with
    | some q => clearDescCaches r.1 q
    | none => r.1
  else o

/-- The cache keys the dependent-key expansion writes for a changed key's
value (observable.js:941–944): for a truthy `func = this[key]` the source
does `this[func.cacheKey] = undefined` and clears
`cache[func.cacheKey]`/`cache[func.lastSetValueKey]`.  On a descriptor
these are its real keys; on a truthy plain value `func.cacheKey` is the
JavaScript `undefined`, which stringifies to the property name
`"undefined"`. -/
def expansionKeysOf : JSProp → Option (String × String)
  | .descr d => some (d.cacheKey, d.lastSetValueKey)
  | .val v => if v.truthy then some ("undefined", "undefined") else none

/-- One changed key's dependent-key handling inside
`_hub_notifyPropertyObservers` (observable.js:935–945): add each dependent
key to the changes set (the source iterates the array from its end) and
clear the corresponding caches. -/
def expandWrite (acc : Obj × List String) (dk : String) : Obj × List String :=
  let o := acc.1
  let cs := coreAdd acc.2 dk
  match expansionKeysOf (o.props dk) with
  | some (ck, lsk) =>
      let o := { o with props := fun k =>
        if k = ck then .val .undef else o.props k }
      ((o.cacheSet ck .undef).cacheSet lsk .undef, cs)
  | none => (o, cs)

/-- See `expandWrite` above: fold the per-dependent-key work over the
dependents array, iterated from its end as the source's `while(--loc >= 0)`
does. -/
def expandOneKey (o : Obj) (cs : List String) (dks : List String) :
    Obj × List String :=
  dks.reverse.foldl expandWrite (o, cs)

/-- The dependent-key expansion pass of `_hub_notifyPropertyObservers`
(observable.js:925–948): walk the changes set from index 0, appending the
dependents of each key, "iterating forward over the growing set until
stable".  The set only grows by `coreAdd`, so the number of iterations is
bounded by the initial length plus the total number of dependent edges;
`fuel` (always passed at least that large) makes the recursion well-founded
in Lean. -/
def expandChanges (o : Obj) : Nat → List String → Nat → Obj × List String
  | 0, cs, _ => (o, cs)
  | fuel + 1, cs, idx =>
      if h : idx < cs.length then
        if (depLookup o.dependents (cs.get ⟨idx, h⟩)).isEmpty then
          expandChanges o fuel cs (idx + 1)
        else
          let r := expandOneKey o.ensureCache cs
            (depLookup o.dependents (cs.get ⟨idx, h⟩))
          expandChanges r.1 fuel r.2 (idx + 1)
      else (o, cs)

/-- The per-key ObserverSet member loop (observable.js:957–974): walk the
`getMembers()` snapshot in order; a member whose `lastNotifiedRevision`
(`member[3]`) equals the current revision is skipped, otherwise the slot is
set to `rev` and the member fired.  Returns the updated member list and the
events in firing order. -/
def notifyMembers (key : String) (rev : Nat) :
    List Member → List Member × List Event
  | [] => ([], [])
  | m :: rest =>
      let r := notifyMembers key rev rest
      if m.lastNotified = rev then (m :: r.1, r.2)
      else
        ({ m with lastNotified := rev } :: r.1,
          .memberFire key m.target m.method m.context rev :: r.2)

/-- Whether a local observer's method-name string resolves on the receiver
(observable.js:985–986, `method = this[member]; if (method) ...`): the
source fires any truthy `this[member]` — a descriptor or a plain function
here.  A truthy non-function would throw a `TypeError` in JavaScript; such
states are outside this model. -/
def localResolves (o : Obj) (name : String) : Bool :=
  match o.props name with
  | .descr _ => true
  | .val (.fnv _) => true
  | .val _ => false

/-- The local-observer firings for one key (observable.js:977–991): each
method-name string in `_kvo_local_key` that resolves on the receiver. -/
def localEvs (o : Obj) (key : String) : List Event :=
  (o.localObs key).filterMap fun name =>
    if localResolves o name then some (.localFire key name) else none

/-- The `propertyObserver` hook firing (observable.js:1013–1016). -/
def hookEvs (o : Obj) (key : String) (rev : Nat) : List Event :=
  if o.hasPropertyObserverHook then [Event.hookFire key rev] else []

/-- Notify everything interested in one changed key, in the source's order
(observable.js:955–1016): (a) the per-key ObserverSet members — whose
`lastNotifiedRevision` slots are written back in place, modelled by the
update of `observers` at the key — then (b) the local observers, (c) the
star observers — skipped when the key is `'*'` itself (when the key is not
`'*'` the slot write-back at `key` leaves the `'*'` set untouched, so
reading it before or after the update is the same) — and (d) the
`propertyObserver` hook. -/
def processKey (o : Obj) (key : String) (rev : Nat) : Obj × List Event :=
  let r := notifyMembers key rev (o.observers key)
  let o' := { o with observers := fun k => if k = key then r.1 else o.observers k }
  let evC := if key ≠ "*" then
      (o.observers "*").map fun m => Event.starFire key m.target m.method
    else []
  (o', r.2 ++ localEvs o key ++ evC ++ hookEvs o key rev)

/-- The `while(changes.length > 0) { key = changes.pop() ... }` loop
(observable.js:951–1017).  `CoreSet.pop` removes the last element, so the
keys are processed in LIFO order; this helper takes the list already in pop
order (the reversed changes set). -/
def fanoutAux (rev : Nat) : Obj → List String → Obj × List Event
  | o, [] => (o, [])
  | o, key :: rest =>
      let r := processKey o key rev
      let r' := fanoutAux rev r.1 rest
      (r'.1, r.2 ++ r'.2)

/-- Whether `_hub_kvo_changes` is a non-empty set
(`changes && changes.length > 0`). -/
def changesNonempty (o : Obj) : Bool :=
  match o.changes with
  | some cs => cs.length > 0
  | none => false

/-- `_hub_notifyPropertyObservers` (observable.js:882).  `initObservable`
has already run on every object of this model and the process-wide
`ObserverQueue` holds no deferred path observers, so those two opening
calls are no-ops here.  The body increments `changeLevel` for the duration,
then: bump `propertyRevision`, take the pending changes set (swapping in
null), add the passed key — on `'*'` also every observed key — expand
dependent keys, and fan out in LIFO pop order.  The source repeats the pass
while observers queued further changes; observers in this model are
trace-only and never re-enter `set`, so `_hub_kvo_changes` is still null
after the pass and the outer `while` exits after one iteration.

`notifySetup` is the pass preamble (observable.js:905–948): bump
`propertyRevision`, swap the pending changes set out for null, add the
passed key, and run the dependent-key expansion. -/
def notifySetup (o : Obj) (key : Option String) : Obj × List String :=
  let rev := o.propertyRevision + 1
  let o := { o with propertyRevision := rev }
  let cs := o.changes.getD []
  let o := { o with changes := none }
  let cs := match key with
    | some k =>
        if k = "*" then coreAddEach (coreAdd cs "*") o.observedKeys
        else coreAdd cs k
    | none => cs
  expandChanges o (cs.length + o.depSize + 1) cs 0

/-- The full `_hub_notifyPropertyObservers` body: guard, setup pass, and
LIFO fan-out (see the comment above `notifySetup`). -/
def notifyPropertyObservers (o : Obj) (key : Option String) :
    Obj × List Event :=
  let o := { o with changeLevel := o.changeLevel + 1 }
  if changesNonempty o ∨ key.isSome then
    let p := notifySetup o key
    let r := fanoutAux p.1.propertyRevision p.1 p.2.reverse
    ({ r.1 with changeLevel := r.1.changeLevel - 1 }, r.2)
  else
    ({ o with changeLevel := o.changeLevel - 1 }, [])

/-- `propertyDidChange(key, value, _hub_keepCache)` (observable.js:414):
increment `_hub_kvo_revision`; when the object has cacheable properties and
a cache, clear the key's own descriptor caches (unless `keepCache`) and the
caches of its cached dependents; then either record the key in the pending
changes set (when grouping is active or observing is suspended — the
source also tells the ObserverQueue about the pending object, bookkeeping
with no effect on the object itself) or notify immediately.  The `value`
parameter is unused by the source body.

`pdcOwnClear` is the own-key clearing (observable.js:424–429): unless
`keepCache`, a computed-property descriptor at the key has its `cacheKey`
and `lastSetValueKey` cache slots cleared. -/
def pdcOwnClear (o : Obj) (key : String) (keepCache : Bool) : Obj :=
  if !keepCache then
    match o.props key with
    | .descr d => (o.cacheSet d.cacheKey .undef).cacheSet d.lastSetValueKey .undef
    | .val _ => o
  else o

/-- The cache-clearing block of `propertyDidChange` (observable.js:421–445),
guarded by `this._hub_kvo_cacheable && this._hub_kvo_cache`: clear the
key's own descriptor slots via `pdcOwnClear` above (unless `keepCache`),
then clear the caches of the key's cached dependents. -/
def pdcClearCaches (o : Obj) (key : String) (keepCache : Bool) : Obj :=
  if o.cacheable ∧ o.cache.isSome then
    let o := pdcOwnClear o key keepCache
    let r := cachedDependentsFor o key
    match r.2 with
    | some q => clearDescCaches r.1 q
    | none => r.1
  else o

/-- The full `propertyDidChange` body (see the comment above
`pdcOwnClear`): bump the revision, clear caches, then defer or notify. -/
def propertyDidChange (o : Obj) (key : String) (keepCache : Bool) :
    Obj × List Event :=
  let o := { o with revision := o.revision + 1 }
  let o := pdcClearCaches o key keepCache
  if o.changeLevel > 0 ∨ o.suspended then
    ({ o with changes := some (coreAdd (o.changes.getD []) key) }, [])
  else notifyPropertyObservers o (some key)

/-- `propertyWillChange(key)` (observable.js:393): the default is a no-op
returning the receiver. -/
def propertyWillChange (o : Obj) (_key : String) : Obj := o

/-- `get(key)` (observable.js:206): plain values are returned as-is; an
absent property delegates to `unknownProperty(key)`, whose default getter
returns `undefined` without touching the object; a computed-property
descriptor is invoked — memoized under its `cacheKey` when `isCacheable`,
with a slot holding `undefined` treated as a miss.  Returns the updated
object, the events, and the value. -/
def get (o : Obj) (key : String) : Obj × List Event × JSVal :=
  match o.props key with
  | .val .undef => (o, [], .undef)
  | .descr d =>
      if d.isCacheable then
        let o := o.ensureCache
        let cached := o.cacheGet d.cacheKey
        if cached ≠ .undef then (o, [], cached)
        else
          let ret := d.fn key .undef
          (o.cacheSet d.cacheKey ret, [.descrInvoke key .undef], ret)
      else (o, [.descrInvoke key .undef], d.fn key .undef)
  | .val v => (o, [], v)

/-- `set(key, value)` (observable.js:266).  The mixin's own
`automaticallyNotifiesObserversFor` always returns true, so `notify` is
true throughout.  First the cached dependents of the key are cleared; then:
a computed-property descriptor is invoked with `(key, value)` unless the
value equals the recorded last-set value (volatile descriptors are always
invoked), memoizing the last-set value and — when `isCacheable` — the
returned value; an absent property goes through `unknownProperty(key,
value)` (default: store the value when it is not `undefined`) and always
notifies; a plain property is written and notified only when the value
differs.  `propertyWillChange` is the default no-op. -/
def set (o : Obj) (key : String) (value : JSVal) : Obj × List Event :=
  let o := clearCachedDependentsStep o key
  match o.props key with
  | .descr d =>
      if d.isVolatile ∨ o.cache.isNone ∨ o.cacheGet d.lastSetValueKey ≠ value then
        let o := o.ensureCache
        let o := o.cacheSet d.lastSetValueKey value
        let o := propertyWillChange o key
        let ret := d.fn key value
        let o := if d.isCacheable then o.cacheSet d.cacheKey ret else o
        let r := propertyDidChange o key true
        (r.1, .descrInvoke key value :: r.2)
      else (o, [])
  | .val .undef =>
      let o := propertyWillChange o key
      let o := if value ≠ .undef then
          { o with props := fun k => if k = key then .val value else o.props k }
        else o
      propertyDidChange o key false
  | .val v =>
      if v ≠ value then
        let o := propertyWillChange o key
        let o := { o with props := fun k => if k = key then .val value else o.props k }
        propertyDidChange o key false
      else (o, [])

/-- `beginPropertyChanges()` (observable.js:351). -/
def beginPropertyChanges (o : Obj) : Obj :=
  { o with changeLevel := o.changeLevel + 1 }

/-- `endPropertyChanges()` (observable.js:368): decrement the change level
(`(level || 1) - 1`), and when it reaches zero with pending changes and the
global queue not suspended, flush the notifications. -/
def endPropertyChanges (o : Obj) : Obj × List Event :=
  let lvl := (if o.changeLevel = 0 then 1 else o.changeLevel) - 1
  let o := { o with changeLevel := lvl }
  if lvl = 0 ∧ changesNonempty o ∧ !o.suspended then
    notifyPropertyObservers o none
  else (o, [])

/-- `setIfChanged(key, value)` (observable.js:1090):
`(this.get(key) !== value) ? this.set(key, value) : this`. -/
def setIfChanged (o : Obj) (key : String) (value : JSVal) : Obj × List Event :=
  let g := get o key
  if g.2.2 ≠ value then
    let r := set g.1 key value
    (r.1, g.2.1 ++ r.2)
  else (g.1, g.2.1)

/-- `notifyPropertyChange(key, value)` (observable.js:1209):
`propertyWillChange` then `propertyDidChange` (no `keepCache`). -/
def notifyPropertyChange (o : Obj) (key : String) : Obj × List Event :=
  propertyDidChange (propertyWillChange o key) key false

/-- `allPropertiesDidChange()` (observable.js:1227): clear the cache and
notify with the wildcard key. -/
def allPropertiesDidChange (o : Obj) : Obj × List Event :=
  notifyPropertyObservers { o with cache := none } (some "*")

/-- `registerDependentKey(key, dependentKeys)` (observable.js:485): append
`key` to `dependents[dep]` for each dependent key (the source iterates the
argument list from its end). -/
def registerDependentKey (o : Obj) (key : String) (deps : List String) :
    Obj :=
  deps.reverse.foldl
    (fun o dep =>
      { o with dependents :=
          match o.dependents.find? (fun p => p.1 = dep) with
          | some _ => o.dependents.map fun p =>
              if p.1 = dep then (p.1, p.2 ++ [key]) else p
          | none => o.dependents ++ [(dep, [key])] })
    o

/-- The argument normalization shared by `addObserver` and `removeObserver`
(observable.js:661–666 and 713–718): when `method` is `undefined` the
`target` argument becomes the method and the receiver becomes the target; a
falsy target becomes the receiver; a string method is resolved by property
lookup on the (possibly re-assigned) target.  The receiver is `.obj 0`;
string lookup on a foreign target yields `undefined` (foreign objects carry
no modelled properties).  Returns `(target, method)` after normalization,
or the thrown message when the resolved method is falsy
(`if (!method) throw`). -/
def resolveObserverArgs (o : Obj) (target method : JSVal) :
    Except String (JSVal × JSVal) :=
  let t1 := if method = .undef then (.obj 0 : JSVal) else target
  let m1 := if method = .undef then target else method
  let t2 := if t1.truthy then t1 else .obj 0
  let m2 := match m1 with
    | .str s => if t2 = .obj 0 then (o.props s).asVal else .undef
    | _ => m1
  if m2.truthy then .ok (t2, m2)
  else .error "You must pass a method to addObserver()"

/-- ObserverSet `add(target, method, context)` — modelled from the spec
(§4.A): idempotent on the `(target, method)` pair, overwriting the context
(last writer wins); a new member's `lastNotifiedRevision` slot starts at 0. -/
def observerSetAdd (ms : List Member) (t : Option JSVal) (m : JSVal)
    (c : Option Nat) : List Member :=
  if ms.any (fun e => e.target = t ∧ e.method = m) then
    ms.map fun e => if e.target = t ∧ e.method = m then { e with context := c } else e
  else ms ++ [⟨t, m, c, 0⟩]

/-- ObserverSet `remove(target, method)` — modelled from the spec (§4.A). -/
def observerSetRemove (ms : List Member) (t : Option JSVal) (m : JSVal) :
    List Member :=
  ms.filter fun e => ¬(e.target = t ∧ e.method = m)

/-- `addObserver(key, target, method, context)` (observable.js:656): after
normalization a falsy resolved method throws, leaving the object untouched.
A key containing `'.'` builds a chain observer (recorded here by its
`(key, masterMethod)` pair; the chain internals live outside the claims);
otherwise the `(target, method, context)` triple is added to the per-key
ObserverSet — with `target === this` stored as `null` — and the key to
`_kvo_observed_keys`.  The `'@'`-prefixed reduced-property special case
calls `get` on an absent property, which is a no-op for the default
`unknownProperty`; the mixin defines no `didAddObserver` hook. -/
def addObserver (o : Obj) (key : String) (target method : JSVal)
    (context : Option Nat) : Except String Obj :=
  match resolveObserverArgs o target method with
  | .error e => .error e
  | .ok (t, m) =>
      if key.contains '.' then
        .ok { o with chains := o.chains ++ [(key, m)] }
      else
        let t' : Option JSVal := if t = .obj 0 then none else some t
        .ok { o with
          observers := fun k =>
            if k = key then observerSetAdd (o.observers key) t' m context
            else o.observers k
          observedKeys := coreAdd o.observedKeys key }

/-- `removeObserver(key, target, method)` (observable.js:708): same
normalization and throw as `addObserver`.  A dotted key destroys the
matching chains; otherwise the pair is removed from the per-key ObserverSet
and, when the set has no members left, the key leaves
`_kvo_observed_keys`. -/
def removeObserver (o : Obj) (key : String) (target method : JSVal) :
    Except String Obj :=
  match resolveObserverArgs o target method with
  | .error e => .error e
  | .ok (t, m) =>
      if key.contains '.' then
        .ok { o with chains := o.chains.filter fun p => ¬(p.1 = key ∧ p.2 = m) }
      else
        let t' : Option JSVal := if t = .obj 0 then none else some t
        let ms := observerSetRemove (o.observers key) t' m
        .ok { o with
          observers := fun k => if k = key then ms else o.observers k
          observedKeys := if ms.isEmpty then o.observedKeys.filter (· ≠ key)
            else o.observedKeys }

/-- One call of the observable surface, for stating properties over
arbitrary operation sequences.  `incrementProperty`, `decrementProperty`,
`toggleProperty`, `setPath` and friends are compositions of `get`/`set` and
are covered by sequences of these. -/
inductive Op where
  | opGet (key : String)
  | opSet (key : String) (value : JSVal)
  | opSetIfChanged (key : String) (value : JSVal)
  | opBegin
  | opEnd
  | opWillChange (key : String)
  | opDidChange (key : String) (keepCache : Bool)
  | opNotifyChange (key : String)
  | opAllDidChange
  | opAddObserver (key : String) (target method : JSVal) (context : Option Nat)
  | opRemoveObserver (key : String) (target method : JSVal)
  | opRegisterDependentKey (key : String) (deps : List String)

/-- Apply one operation to the object (a thrown `addObserver` /
`removeObserver` leaves the object unchanged: the source throws before any
mutation). -/
def applyOp (o : Obj) : Op → Obj
  | .opGet key => (get o key).1
  | .opSet key v => (set o key v).1
  | .opSetIfChanged key v => (setIfChanged o key v).1
  | .opBegin => beginPropertyChanges o
  | .opEnd => (endPropertyChanges o).1
  | .opWillChange key => propertyWillChange o key
  | .opDidChange key keep => (propertyDidChange o key keep).1
  | .opNotifyChange key => (notifyPropertyChange o key).1
  | .opAllDidChange => (allPropertiesDidChange o).1
  | .opAddObserver key t m c => (addObserver o key t m c).toOption.getD o
  | .opRemoveObserver key t m => (removeObserver o key t m).toOption.getD o
  | .opRegisterDependentKey key deps => registerDependentKey o key deps

/-- Apply a sequence of operations. -/
def applyOps (o : Obj) (ops : List Op) : Obj :=
  ops.foldl applyOp o

/-- How many times a per-key ObserverSet member `(target, method)` fires
for changes of `key` in an event trace. -/
def countMemberFires (evs : List Event) (key : String) (t : Option JSVal)
    (m : JSVal) : Nat :=
  (evs.filter fun e =>
    match e with
    | .memberFire k t' m' _ _ => k = key ∧ t' = t ∧ m' = m
    | _ => false).length

/-- Whether a trace contains any per-key ObserverSet member notification. -/
def hasMemberFire (evs : List Event) : Bool :=
  evs.any fun e =>
    match e with
    | .memberFire _ _ _ _ _ => true
    | _ => false

/-- How many members of a member list carry a given `(target, method)`
pair. -/
def pairCount (ms : List Member) (t : Option JSVal) (m : JSVal) : Nat :=
  (ms.filter fun e => e.target = t ∧ e.method = m).length

/-- The `(target, method)` pairs of a member list. -/
def memberPairs (ms : List Member) : List (Option JSVal × JSVal) :=
  ms.map fun m => (m.target, m.method)

/-- Well-formedness the source's ObserverSet maintains: within one per-key
set, `(target, method)` pairs are unique (§4.A: `add` is idempotent on the
pair). -/
def pairsNodup (ms : List Member) : Prop :=
  (memberPairs ms).Nodup

/-- The `lastNotifiedRevision` slot of the `(target, method)` member of a
member list, when present. -/
def slotOf (ms : List Member) (t : Option JSVal) (m : JSVal) : Option Nat :=
  (ms.find? fun e => e.target = t ∧ e.method = m).map (·.lastNotified)

/-- The order the specification promises for one changed key (spec §5
"Ordering guarantees" 1, §4.B step 6): the per-key ObserverSet members in
snapshot order, then the local observers (method-name strings resolved on
the receiver), then the star observers — skipped when the current key is
`'*'` — then the `propertyObserver` hook.  Written from the claim's words,
to be compared with the trace the embedded fan-out produces. -/
def orderedKeySegment (o : Obj) (rev : Nat) (key : String) : List Event :=
  ((o.observers key).map fun mm =>
      Event.memberFire key mm.target mm.method mm.context rev)
    ++ localEvs o key
    ++ (if key = "*" then []
        else (o.observers "*").map fun mm => Event.starFire key mm.target mm.method)
    ++ hookEvs o key rev

/-- The cross-key order the specification promises for one fan-out pass:
the pending keys in LIFO pop order of the changes set, each contributing
its `orderedKeySegment`.  All segments are read off the object as it stands
when the pass starts. -/
def orderedFanoutTrace (o : Obj) (cs : List String) (rev : Nat) : List Event :=
  cs.reverse.flatMap (orderedKeySegment o rev)

/-- Apply a list of `set(key, value)` calls in order, concatenating their
event traces. -/
def applySetList (o : Obj) : List (String × JSVal) → Obj × List Event
  | [] => (o, [])
  | p :: ps =>
      let r := set o p.1 p.2
      let r' := applySetList r.1 ps
      (r'.1, r.2 ++ r'.2)

/-- Whether a trace contains a descriptor invocation. -/
def hasDescrInvoke (evs : List Event) : Bool :=
  evs.any fun e =>
    match e with
    | .descrInvoke _ _ => true
    | _ => false

/-- A pristine observable object: no properties, no observers, no pending
changes; counters at their source initial values (`_hub_kvo_revision`
defaults to 0, `propertyRevision` to 1).  Concrete test objects for the
witnesses below are built from it. -/
def baseObj : Obj where
  props := fun _ => .val .undef
  cache := none
  cacheable := false
  cachedep := []
  dependents := []
  revision := 0
  propertyRevision := 1
  changeLevel := 0
  changes := none
  observers := fun _ => []
  localObs := fun _ => []
  observedKeys := []
  hasPropertyObserverHook := false
  suspended := false
  chains := []

/-- A plain-property object for concrete tests: `"x"` holds the number 1. -/
def plainObj : Obj :=
  { baseObj with props := fun k => if k = "x" then .val (.num 1) else .val .undef }

/-- A cacheable computed property whose function always returns
`undefined`. -/
def undefDesc : Desc :=
  ⟨fun _ _ => .undef, true, false, "ck", "lsk", 9⟩

/-- An object carrying `undefDesc` at key `"f"`. -/
def undefDescObj : Obj :=
  { baseObj with
    props := fun k => if k = "f" then .descr undefDesc else .val .undef
    cacheable := true }

/-- A cacheable, non-volatile computed property that returns its argument. -/
def echoDesc : Desc :=
  ⟨fun _ v => v, true, false, "ck", "lsk", 9⟩

/-- An object carrying `echoDesc` at key `"p"`. -/
def echoDescObj : Obj :=
  { baseObj with
    props := fun k => if k = "p" then .descr echoDesc else .val .undef
    cacheable := true }

/-- An object with a plain `"value"` property and one remote observer
registered on it (target id 3, method id 7). -/
def observedObj : Obj :=
  { baseObj with
    props := fun k => if k = "value" then .val (.num 1) else .val .undef
    observers := fun k =>
      if k = "value" then [⟨some (.obj 3), .fnv 7, none, 0⟩] else []
    observedKeys := ["value"] }

end Hub

namespace Hub.Store

/-!
## Store and nested editing contexts

The Store / EditingContext implementation (`system/store.js`) is not among
the provided source files — only its unit tests are — so this part is
modelled from the specification (§4.E "Store & EditingContext", §3
invariants 5–6), cross-checked against the behaviour the provided tests
`tests/datastore/system/store/writeDataHash.js` assert.
-/

/-- Per-(context, storeKey) edit state (spec §3 "EditState"). -/
inductive EditState where
  | INHERITED
  | LOCKED
  | EDITABLE
  deriving DecidableEq, Repr

/-- Modelled from the spec: a top-level store's parallel arrays indexed by
StoreKey — `dataHashes`, `statuses`, `revisions`, `editables` (§4.E
"Shapes").  `hash` and `status` cell types are abstract. -/
structure Base (H S : Type) where
  dataHashes : Nat → Option H
  statuses : Nat → Option S
  revisions : Nat → Option Nat
  editables : Nat → Bool

/-- Modelled from the spec: `writeDataHash(sk, hash, status?)` on a store
"sets the private hash, transitions to `EDITABLE`, updates status if
provided, but does not advance the stored revision" (§4.E).  The source
returns the receiver; in this state-passing embedding the returned store is
the updated receiver. -/
def writeDataHash {H S : Type} (s : Base H S) (sk : Nat) (h : H)
    (st : Option S) : Base H S :=
  { s with
    dataHashes := fun k => if k = sk then some h else s.dataHashes k
    editables := fun k => if k = sk then true else s.editables k
    statuses := fun k => match st with
      | some v => if k = sk then some v else s.statuses k
      | none => s.statuses k }

/-- Modelled from the spec: `readDataHash(sk)` on a top-level store returns
the stored hash (§6 "Store surface"). -/
def readDataHash {H S : Type} (s : Base H S) (sk : Nat) : Option H :=
  s.dataHashes sk

/-- Modelled from the spec: `readStatus(sk)`. -/
def readStatus {H S : Type} (s : Base H S) (sk : Nat) : Option S :=
  s.statuses sk

/-- Modelled from the spec and the preconditions asserted in
`tests/datastore/system/store/writeDataHash.js`: on a top-level store a
StoreKey is `EDITABLE` when `editables[sk]` is set and `LOCKED` otherwise
(`INHERITED` arises only in a child context). -/
def storeKeyEditState {H S : Type} (s : Base H S) (sk : Nat) : EditState :=
  if s.editables sk then .EDITABLE else .LOCKED

/-- Modelled from the spec: a nested EditingContext over a parent store.
It "shadows the same arrays sparsely" (§4.E); `childStates` is the
per-StoreKey edit state, initially `INHERITED`, and the `childHashes` /
`childStatuses` / `childRevs` entries are meaningful once the state is
`LOCKED` or `EDITABLE`.  A StoreKey in state `INHERITED` resolves through
the parent (§3 invariant 5). -/
structure Nested (H S : Type) where
  parent : Base H S
  childStates : Nat → EditState
  childHashes : Nat → Option H
  childStatuses : Nat → Option S
  childRevs : Nat → Option Nat

/-- Modelled from the spec: a fresh child editing context — every StoreKey
starts in `INHERITED` (§4.E "Initial state in a child: INHERITED"). -/
def createEditingContext {H S : Type} (p : Base H S) : Nested H S :=
  { parent := p
    childStates := fun _ => .INHERITED
    childHashes := fun _ => none
    childStatuses := fun _ => none
    childRevs := fun _ => none }

/-- Modelled from the spec: `writeDataHash` performed on the parent of a
nested context.  The parent's own arrays are updated as for any store; the
child's private entries are not touched — "a write in a parent propagates
to each child iff that child's state for `sk` is `INHERITED`" (§4.E
"Propagation"), and an `INHERITED` child sees the write precisely because
its reads resolve through the parent, while a `LOCKED` or `EDITABLE` child
keeps its independent view. -/
def parentWriteDataHash {H S : Type} (c : Nested H S) (sk : Nat) (h : H)
    (st : Option S) : Nested H S :=
  { c with parent := writeDataHash c.parent sk h st }

/-- Modelled from the spec: `readDataHash(sk)` in a child context.
"`readDataHash(sk)` in `INHERITED` returns the parent's current hash and
transitions to `LOCKED` (the child now holds a shared reference); the
revision is snapshotted" (§4.E).  In `LOCKED` or `EDITABLE` the child's own
entry is returned.  Returns the result together with the updated context. -/
def childReadDataHash {H S : Type} (c : Nested H S) (sk : Nat) :
    Nested H S × Option H :=
  match c.childStates sk with
  | .INHERITED =>
      ({ c with
          childStates := fun k => if k = sk then .LOCKED else c.childStates k
          childHashes := fun k =>
            if k = sk then c.parent.dataHashes sk else c.childHashes k
          childStatuses := fun k =>
            if k = sk then c.parent.statuses sk else c.childStatuses k
          childRevs := fun k =>
            if k = sk then c.parent.revisions sk else c.childRevs k },
        c.parent.dataHashes sk)
  | _ => (c, c.childHashes sk)

/-- The hash a `readDataHash(sk)` call on the child returns (the result
component of `childReadDataHash`). -/
def childReadResult {H S : Type} (c : Nested H S) (sk : Nat) : Option H :=
  (childReadDataHash c sk).2

/-- Modelled from the spec: `readEditableDataHash(sk)` in a child context
"transitions to `EDITABLE`: if currently `LOCKED` or `INHERITED`, the
context makes its own shallow copy of the parent's data hash and records
`editables[sk] = true`" (§4.E). -/
def childReadEditableDataHash {H S : Type} (c : Nested H S) (sk : Nat) :
    Nested H S × Option H :=
  match c.childStates sk with
  | .EDITABLE => (c, c.childHashes sk)
  | .INHERITED =>
      ({ c with
          childStates := fun k => if k = sk then .EDITABLE else c.childStates k
          childHashes := fun k =>
            if k = sk then c.parent.dataHashes sk else c.childHashes k
          childStatuses := fun k =>
            if k = sk then c.parent.statuses sk else c.childStatuses k },
        c.parent.dataHashes sk)
  | .LOCKED =>
      ({ c with
          childStates := fun k => if k = sk then .EDITABLE else c.childStates k },
        c.childHashes sk)

end Hub.Store

/-!
## Proofs

General lemmas first (CoreSet, frame/shape lemmas for the Observable
operations), then one theorem per claim of the specification.
-/

namespace Hub

theorem coreAdd_nodup {l : List String} (h : l.Nodup) (k : String) :
    (coreAdd l k).Nodup := by
  unfold coreAdd
  split
  · exact h
  · simpa [List.nodup_append] using ⟨h, by assumption⟩

theorem coreAdd_mem_of_mem {l : List String} {k : String} (k' : String)
    (h : k ∈ l) : k ∈ coreAdd l k' := by
  unfold coreAdd
  split
  · exact h
  · exact List.mem_append_left _ h

theorem mem_coreAdd_self (l : List String) (k : String) : k ∈ coreAdd l k := by
  unfold coreAdd
  split
  · assumption
  · simp

theorem coreAddEach_mem_of_mem {l : List String} {k : String}
    (ks : List String) (h : k ∈ l) : k ∈ coreAddEach l ks := by
  induction ks generalizing l with
  | nil => exact h
  | cons x xs ih => exact ih (coreAdd_mem_of_mem x h)

theorem coreAddEach_nodup {l : List String} (h : l.Nodup) (ks : List String) :
    (coreAddEach l ks).Nodup := by
  induction ks generalizing l with
  | nil => exact h
  | cons x xs ih => exact ih (coreAdd_nodup h x)

end Hub

namespace Hub.Store

/-- C8.  `writeDataHash(sk, hash, status)` sets the data hash read back by
`readDataHash(sk)` to the written hash, transitions the edit state for `sk`
to `EDITABLE`, sets the status when one is provided (and leaves it alone
otherwise), and leaves the stored `revisions` array entirely unchanged.
The returned store is the updated receiver itself (the source's
`return this`). -/
theorem writeDataHash_sets_hash_editable_keeps_revision
    (H S : Type) (s : Base H S) (sk : Nat) (h : H) (st : Option S) :
    readDataHash (writeDataHash s sk h st) sk = some h ∧
    storeKeyEditState (writeDataHash s sk h st) sk = .EDITABLE ∧
    readStatus (writeDataHash s sk h st) sk =
      (match st with
        | some v => some v
        | none => readStatus s sk) ∧
    (writeDataHash s sk h st).revisions = s.revisions := by
  refine ⟨?_, ?_, ?_, ?_⟩
  · simp [readDataHash, writeDataHash]
  · simp [storeKeyEditState, writeDataHash]
  · cases st <;> simp [readStatus, writeDataHash]
  · rfl

/-- C1.  With a child editing context, a `writeDataHash` performed on the
parent changes the value `child.readDataHash(sk)` returns — to the newly
written hash — if and only if the child's edit state for `sk` at the time
of the write is `INHERITED`; when the child's state is `LOCKED` or
`EDITABLE`, the child's previously seen hash is unchanged by the parent's
write.  The hypothesis says the child's previous view differs from the
newly written hash (otherwise there is nothing to "change"). -/
theorem parent_write_propagates_iff_inherited
    (H S : Type) (c : Nested H S) (sk : Nat) (h : H) (st : Option S)
    (hprev : childReadResult c sk ≠ some h) :
    (childReadResult (parentWriteDataHash c sk h st) sk ≠ childReadResult c sk
      ↔ c.childStates sk = .INHERITED) ∧
    (c.childStates sk = .INHERITED →
      childReadResult (parentWriteDataHash c sk h st) sk = some h) ∧
    (c.childStates sk ≠ .INHERITED →
      childReadResult (parentWriteDataHash c sk h st) sk = childReadResult c sk) := by
  have hres : ∀ d : Nested H S, childReadResult d sk =
      (match d.childStates sk with
        | .INHERITED => d.parent.dataHashes sk
        | _ => d.childHashes sk) := by
    intro d
    cases hd : d.childStates sk <;>
      simp [childReadResult, childReadDataHash, hd]
  have h1 : childReadResult (parentWriteDataHash c sk h st) sk =
      (match c.childStates sk with
        | .INHERITED => some h
        | _ => c.childHashes sk) := by
    rw [hres]
    cases hd : c.childStates sk <;>
      simp [parentWriteDataHash, writeDataHash, hd]
  have h2 := hres c
  cases hd : c.childStates sk with
  | INHERITED =>
      rw [hd] at h1 h2
      simp only at h1 h2
      rw [h2] at hprev
      refine ⟨?_, fun _ => h1, fun hne => absurd rfl hne⟩
      simp only [h1, h2, eq_self_iff_true, iff_true]
      exact fun he => hprev he.symm
  | LOCKED =>
      rw [hd] at h1 h2
      simp only at h1 h2
      refine ⟨by simp [h1, h2], by simp, fun _ => by rw [h1, h2]⟩
  | EDITABLE =>
      rw [hd] at h1 h2
      simp only at h1 h2
      refine ⟨by simp [h1, h2], by simp, fun _ => by rw [h1, h2]⟩

/-- A concrete empty parent store over `Nat` hashes and statuses, and a
fresh child editing context on it; used to witness the propagation
theorem. -/
def emptyBase : Base Nat Nat :=
  ⟨fun _ => none, fun _ => none, fun _ => none, fun _ => false⟩

/-- The fresh child context on `emptyBase`. -/
def freshChild : Nested Nat Nat := createEditingContext emptyBase

theorem parent_write_propagates_iff_inherited_witness :
    childReadResult freshChild 0 ≠ some 5 ∧
    ((childReadResult (parentWriteDataHash freshChild 0 5 (some 7)) 0
        ≠ childReadResult freshChild 0
      ↔ freshChild.childStates 0 = .INHERITED) ∧
    (freshChild.childStates 0 = .INHERITED →
      childReadResult (parentWriteDataHash freshChild 0 5 (some 7)) 0 = some 5) ∧
    (freshChild.childStates 0 ≠ .INHERITED →
      childReadResult (parentWriteDataHash freshChild 0 5 (some 7)) 0
        = childReadResult freshChild 0)) :=
  ⟨by decide,
    parent_write_propagates_iff_inherited Nat Nat freshChild 0 5 (some 7) (by decide)⟩

end Hub.Store

namespace Hub

/-! ### Frame lemmas: which fields each operation can touch -/

@[simp] theorem cacheSet_props (o : Obj) (k : String) (v : JSVal) :
    (o.cacheSet k v).props = o.props := rfl

@[simp] theorem cacheSet_cacheable (o : Obj) (k : String) (v : JSVal) :
    (o.cacheSet k v).cacheable = o.cacheable := rfl

@[simp] theorem cacheSet_cachedep (o : Obj) (k : String) (v : JSVal) :
    (o.cacheSet k v).cachedep = o.cachedep := rfl

@[simp] theorem cacheSet_dependents (o : Obj) (k : String) (v : JSVal) :
    (o.cacheSet k v).dependents = o.dependents := rfl

@[simp] theorem cacheSet_revision (o : Obj) (k : String) (v : JSVal) :
    (o.cacheSet k v).revision = o.revision := rfl

@[simp] theorem cacheSet_propertyRevision (o : Obj) (k : String) (v : JSVal) :
    (o.cacheSet k v).propertyRevision = o.propertyRevision := rfl

@[simp] theorem cacheSet_changeLevel (o : Obj) (k : String) (v : JSVal) :
    (o.cacheSet k v).changeLevel = o.changeLevel := rfl

@[simp] theorem cacheSet_changes (o : Obj) (k : String) (v : JSVal) :
    (o.cacheSet k v).changes = o.changes := rfl

@[simp] theorem cacheSet_observers (o : Obj) (k : String) (v : JSVal) :
    (o.cacheSet k v).observers = o.observers := rfl

@[simp] theorem cacheSet_localObs (o : Obj) (k : String) (v : JSVal) :
    (o.cacheSet k v).localObs = o.localObs := rfl

@[simp] theorem cacheSet_observedKeys (o : Obj) (k : String) (v : JSVal) :
    (o.cacheSet k v).observedKeys = o.observedKeys := rfl

@[simp] theorem cacheSet_hasPropertyObserverHook (o : Obj) (k : String) (v : JSVal) :
    (o.cacheSet k v).hasPropertyObserverHook = o.hasPropertyObserverHook := rfl

@[simp] theorem cacheSet_suspended (o : Obj) (k : String) (v : JSVal) :
    (o.cacheSet k v).suspended = o.suspended := rfl

@[simp] theorem cacheSet_chains (o : Obj) (k : String) (v : JSVal) :
    (o.cacheSet k v).chains = o.chains := rfl

@[simp] theorem cacheSet_cache_isSome (o : Obj) (k : String) (v : JSVal) :
    (o.cacheSet k v).cache.isSome = true := rfl

@[simp] theorem ensureCache_props (o : Obj) :
    o.ensureCache.props = o.props := by
  unfold Obj.ensureCache
  cases o.cache <;> rfl

@[simp] theorem ensureCache_cacheable (o : Obj) :
    o.ensureCache.cacheable = o.cacheable := by
  unfold Obj.ensureCache
  cases o.cache <;> rfl

@[simp] theorem ensureCache_cachedep (o : Obj) :
    o.ensureCache.cachedep = o.cachedep := by
  unfold Obj.ensureCache
  cases o.cache <;> rfl

@[simp] theorem ensureCache_dependents (o : Obj) :
    o.ensureCache.dependents = o.dependents := by
  unfold Obj.ensureCache
  cases o.cache <;> rfl

@[simp] theorem ensureCache_revision (o : Obj) :
    o.ensureCache.revision = o.revision := by
  unfold Obj.ensureCache
  cases o.cache <;> rfl

@[simp] theorem ensureCache_propertyRevision (o : Obj) :
    o.ensureCache.propertyRevision = o.propertyRevision := by
  unfold Obj.ensureCache
  cases o.cache <;> rfl

@[simp] theorem ensureCache_changeLevel (o : Obj) :
    o.ensureCache.changeLevel = o.changeLevel := by
  unfold Obj.ensureCache
  cases o.cache <;> rfl

@[simp] theorem ensureCache_changes (o : Obj) :
    o.ensureCache.changes = o.changes := by
  unfold Obj.ensureCache
  cases o.cache <;> rfl

@[simp] theorem ensureCache_observers (o : Obj) :
    o.ensureCache.observers = o.observers := by
  unfold Obj.ensureCache
  cases o.cache <;> rfl

@[simp] theorem ensureCache_localObs (o : Obj) :
    o.ensureCache.localObs = o.localObs := by
  unfold Obj.ensureCache
  cases o.cache <;> rfl

@[simp] theorem ensureCache_observedKeys (o : Obj) :
    o.ensureCache.observedKeys = o.observedKeys := by
  unfold Obj.ensureCache
  cases o.cache <;> rfl

@[simp] theorem ensureCache_hasPropertyObserverHook (o : Obj) :
    o.ensureCache.hasPropertyObserverHook = o.hasPropertyObserverHook := by
  unfold Obj.ensureCache
  cases o.cache <;> rfl

@[simp] theorem ensureCache_suspended (o : Obj) :
    o.ensureCache.suspended = o.suspended := by
  unfold Obj.ensureCache
  cases o.cache <;> rfl

@[simp] theorem ensureCache_chains (o : Obj) :
    o.ensureCache.chains = o.chains := by
  unfold Obj.ensureCache
  cases o.cache <;> rfl

@[simp] theorem ensureCache_cache_isSome (o : Obj) :
    o.ensureCache.cache.isSome = true := by
  unfold Obj.ensureCache
  cases h : o.cache with
  | none => rfl
  | some cc => simp [h]

@[simp] theorem clearDescCaches_props (o : Obj) (q : List Desc) :
    (clearDescCaches o q).props = o.props := by
  induction q generalizing o with
  | nil => rfl
  | cons d q ih => exact ih _

@[simp] theorem clearDescCaches_cacheable (o : Obj) (q : List Desc) :
    (clearDescCaches o q).cacheable = o.cacheable := by
  induction q generalizing o with
  | nil => rfl
  | cons d q ih => exact ih _

@[simp] theorem clearDescCaches_cachedep (o : Obj) (q : List Desc) :
    (clearDescCaches o q).cachedep = o.cachedep := by
  induction q generalizing o with
  | nil => rfl
  | cons d q ih => exact ih _

@[simp] theorem clearDescCaches_dependents (o : Obj) (q : List Desc) :
    (clearDescCaches o q).dependents = o.dependents := by
  induction q generalizing o with
  | nil => rfl
  | cons d q ih => exact ih _

@[simp] theorem clearDescCaches_revision (o : Obj) (q : List Desc) :
    (clearDescCaches o q).revision = o.revision := by
  induction q generalizing o with
  | nil => rfl
  | cons d q ih => exact ih _

@[simp] theorem clearDescCaches_propertyRevision (o : Obj) (q : List Desc) :
    (clearDescCaches o q).propertyRevision = o.propertyRevision := by
  induction q generalizing o with
  | nil => rfl
  | cons d q ih => exact ih _

@[simp] theorem clearDescCaches_changeLevel (o : Obj) (q : List Desc) :
    (clearDescCaches o q).changeLevel = o.changeLevel := by
  induction q generalizing o with
  | nil => rfl
  | cons d q ih => exact ih _

@[simp] theorem clearDescCaches_changes (o : Obj) (q : List Desc) :
    (clearDescCaches o q).changes = o.changes := by
  induction q generalizing o with
  | nil => rfl
  | cons d q ih => exact ih _

@[simp] theorem clearDescCaches_observers (o : Obj) (q : List Desc) :
    (clearDescCaches o q).observers = o.observers := by
  induction q generalizing o with
  | nil => rfl
  | cons d q ih => exact ih _

@[simp] theorem clearDescCaches_localObs (o : Obj) (q : List Desc) :
    (clearDescCaches o q).localObs = o.localObs := by
  induction q generalizing o with
  | nil => rfl
  | cons d q ih => exact ih _

@[simp] theorem clearDescCaches_observedKeys (o : Obj) (q : List Desc) :
    (clearDescCaches o q).observedKeys = o.observedKeys := by
  induction q generalizing o with
  | nil => rfl
  | cons d q ih => exact ih _

@[simp] theorem clearDescCaches_hasPropertyObserverHook (o : Obj) (q : List Desc) :
    (clearDescCaches o q).hasPropertyObserverHook = o.hasPropertyObserverHook := by
  induction q generalizing o with
  | nil => rfl
  | cons d q ih => exact ih _

@[simp] theorem clearDescCaches_suspended (o : Obj) (q : List Desc) :
    (clearDescCaches o q).suspended = o.suspended := by
  induction q generalizing o with
  | nil => rfl
  | cons d q ih => exact ih _

@[simp] theorem clearDescCaches_chains (o : Obj) (q : List Desc) :
    (clearDescCaches o q).chains = o.chains := by
  induction q generalizing o with
  | nil => rfl
  | cons d q ih => exact ih _

@[simp] theorem computeCachedDependentsFor_props (o : Obj) (k : String) :
    (computeCachedDependentsFor o k).1.props = o.props := by
  unfold computeCachedDependentsFor
  dsimp only
  split <;> rfl

@[simp] theorem computeCachedDependentsFor_cache (o : Obj) (k : String) :
    (computeCachedDependentsFor o k).1.cache = o.cache := by
  unfold computeCachedDependentsFor
  dsimp only
  split <;> rfl

@[simp] theorem computeCachedDependentsFor_cacheable (o : Obj) (k : String) :
    (computeCachedDependentsFor o k).1.cacheable = o.cacheable := by
  unfold computeCachedDependentsFor
  dsimp only
  split <;> rfl

@[simp] theorem computeCachedDependentsFor_dependents (o : Obj) (k : String) :
    (computeCachedDependentsFor o k).1.dependents = o.dependents := by
  unfold computeCachedDependentsFor
  dsimp only
  split <;> rfl

@[simp] theorem computeCachedDependentsFor_revision (o : Obj) (k : String) :
    (computeCachedDependentsFor o k).1.revision = o.revision := by
  unfold computeCachedDependentsFor
  dsimp only
  split <;> rfl

@[simp] theorem computeCachedDependentsFor_propertyRevision (o : Obj) (k : String) :
    (computeCachedDependentsFor o k).1.propertyRevision = o.propertyRevision := by
  unfold computeCachedDependentsFor
  dsimp only
  split <;> rfl

@[simp] theorem computeCachedDependentsFor_changeLevel (o : Obj) (k : String) :
    (computeCachedDependentsFor o k).1.changeLevel = o.changeLevel := by
  unfold computeCachedDependentsFor
  dsimp only
  split <;> rfl

@[simp] theorem computeCachedDependentsFor_changes (o : Obj) (k : String) :
    (computeCachedDependentsFor o k).1.changes = o.changes := by
  unfold computeCachedDependentsFor
  dsimp only
  split <;> rfl

@[simp] theorem computeCachedDependentsFor_observers (o : Obj) (k : String) :
    (computeCachedDependentsFor o k).1.observers = o.observers := by
  unfold computeCachedDependentsFor
  dsimp only
  split <;> rfl

@[simp] theorem computeCachedDependentsFor_localObs (o : Obj) (k : String) :
    (computeCachedDependentsFor o k).1.localObs = o.localObs := by
  unfold computeCachedDependentsFor
  dsimp only
  split <;> rfl

@[simp] theorem computeCachedDependentsFor_observedKeys (o : Obj) (k : String) :
    (computeCachedDependentsFor o k).1.observedKeys = o.observedKeys := by
  unfold computeCachedDependentsFor
  dsimp only
  split <;> rfl

@[simp] theorem computeCachedDependentsFor_hasPropertyObserverHook (o : Obj) (k : String) :
    (computeCachedDependentsFor o k).1.hasPropertyObserverHook = o.hasPropertyObserverHook := by
  unfold computeCachedDependentsFor
  dsimp only
  split <;> rfl

@[simp] theorem computeCachedDependentsFor_suspended (o : Obj) (k : String) :
    (computeCachedDependentsFor o k).1.suspended = o.suspended := by
  unfold computeCachedDependentsFor
  dsimp only
  split <;> rfl

@[simp] theorem computeCachedDependentsFor_chains (o : Obj) (k : String) :
    (computeCachedDependentsFor o k).1.chains = o.chains := by
  unfold computeCachedDependentsFor
  dsimp only
  split <;> rfl

@[simp] theorem cachedDependentsFor_props (o : Obj) (k : String) :
    (cachedDependentsFor o k).1.props = o.props := by
  unfold cachedDependentsFor
  split
  · rfl
  · exact computeCachedDependentsFor_props o k

@[simp] theorem cachedDependentsFor_cache (o : Obj) (k : String) :
    (cachedDependentsFor o k).1.cache = o.cache := by
  unfold cachedDependentsFor
  split
  · rfl
  · exact computeCachedDependentsFor_cache o k

@[simp] theorem cachedDependentsFor_cacheable (o : Obj) (k : String) :
    (cachedDependentsFor o k).1.cacheable = o.cacheable := by
  unfold cachedDependentsFor
  split
  · rfl
  · exact computeCachedDependentsFor_cacheable o k

@[simp] theorem cachedDependentsFor_dependents (o : Obj) (k : String) :
    (cachedDependentsFor o k).1.dependents = o.dependents := by
  unfold cachedDependentsFor
  split
  · rfl
  · exact computeCachedDependentsFor_dependents o k

@[simp] theorem cachedDependentsFor_revision (o : Obj) (k : String) :
    (cachedDependentsFor o k).1.revision = o.revision := by
  unfold cachedDependentsFor
  split
  · rfl
  · exact computeCachedDependentsFor_revision o k

@[simp] theorem cachedDependentsFor_propertyRevision (o : Obj) (k : String) :
    (cachedDependentsFor o k).1.propertyRevision = o.propertyRevision := by
  unfold cachedDependentsFor
  split
  · rfl
  · exact computeCachedDependentsFor_propertyRevision o k

@[simp] theorem cachedDependentsFor_changeLevel (o : Obj) (k : String) :
    (cachedDependentsFor o k).1.changeLevel = o.changeLevel := by
  unfold cachedDependentsFor
  split
  · rfl
  · exact computeCachedDependentsFor_changeLevel o k

@[simp] theorem cachedDependentsFor_changes (o : Obj) (k : String) :
    (cachedDependentsFor o k).1.changes = o.changes := by
  unfold cachedDependentsFor
  split
  · rfl
  · exact computeCachedDependentsFor_changes o k

@[simp] theorem cachedDependentsFor_observers (o : Obj) (k : String) :
    (cachedDependentsFor o k).1.observers = o.observers := by
  unfold cachedDependentsFor
  split
  · rfl
  · exact computeCachedDependentsFor_observers o k

@[simp] theorem cachedDependentsFor_localObs (o : Obj) (k : String) :
    (cachedDependentsFor o k).1.localObs = o.localObs := by
  unfold cachedDependentsFor
  split
  · rfl
  · exact computeCachedDependentsFor_localObs o k

@[simp] theorem cachedDependentsFor_observedKeys (o : Obj) (k : String) :
    (cachedDependentsFor o k).1.observedKeys = o.observedKeys := by
  unfold cachedDependentsFor
  split
  · rfl
  · exact computeCachedDependentsFor_observedKeys o k

@[simp] theorem cachedDependentsFor_hasPropertyObserverHook (o : Obj) (k : String) :
    (cachedDependentsFor o k).1.hasPropertyObserverHook = o.hasPropertyObserverHook := by
  unfold cachedDependentsFor
  split
  · rfl
  · exact computeCachedDependentsFor_hasPropertyObserverHook o k

@[simp] theorem cachedDependentsFor_suspended (o : Obj) (k : String) :
    (cachedDependentsFor o k).1.suspended = o.suspended := by
  unfold cachedDependentsFor
  split
  · rfl
  · exact computeCachedDependentsFor_suspended o k

@[simp] theorem cachedDependentsFor_chains (o : Obj) (k : String) :
    (cachedDependentsFor o k).1.chains = o.chains := by
  unfold cachedDependentsFor
  split
  · rfl
  · exact computeCachedDependentsFor_chains o k

@[simp] theorem clearCachedDependentsStep_props (o : Obj) (k : String) :
    (clearCachedDependentsStep o k).props = o.props := by
  unfold clearCachedDependentsStep
  split
  · dsimp only
    split <;> simp
  · rfl

@[simp] theorem clearCachedDependentsStep_cacheable (o : Obj) (k : String) :
    (clearCachedDependentsStep o k).cacheable = o.cacheable := by
  unfold clearCachedDependentsStep
  split
  · dsimp only
    split <;> simp
  · rfl

@[simp] theorem clearCachedDependentsStep_dependents (o : Obj) (k : String) :
    (clearCachedDependentsStep o k).dependents = o.dependents := by
  unfold clearCachedDependentsStep
  split
  · dsimp only
    split <;> simp
  · rfl

@[simp] theorem clearCachedDependentsStep_revision (o : Obj) (k : String) :
    (clearCachedDependentsStep o k).revision = o.revision := by
  unfold clearCachedDependentsStep
  split
  · dsimp only
    split <;> simp
  · rfl

@[simp] theorem clearCachedDependentsStep_propertyRevision (o : Obj) (k : String) :
    (clearCachedDependentsStep o k).propertyRevision = o.propertyRevision := by
  unfold clearCachedDependentsStep
  split
  · dsimp only
    split <;> simp
  · rfl

@[simp] theorem clearCachedDependentsStep_changeLevel (o : Obj) (k : String) :
    (clearCachedDependentsStep o k).changeLevel = o.changeLevel := by
  unfold clearCachedDependentsStep
  split
  · dsimp only
    split <;> simp
  · rfl

@[simp] theorem clearCachedDependentsStep_changes (o : Obj) (k : String) :
    (clearCachedDependentsStep o k).changes = o.changes := by
  unfold clearCachedDependentsStep
  split
  · dsimp only
    split <;> simp
  · rfl

@[simp] theorem clearCachedDependentsStep_observers (o : Obj) (k : String) :
    (clearCachedDependentsStep o k).observers = o.observers := by
  unfold clearCachedDependentsStep
  split
  · dsimp only
    split <;> simp
  · rfl

@[simp] theorem clearCachedDependentsStep_localObs (o : Obj) (k : String) :
    (clearCachedDependentsStep o k).localObs = o.localObs := by
  unfold clearCachedDependentsStep
  split
  · dsimp only
    split <;> simp
  · rfl

@[simp] theorem clearCachedDependentsStep_observedKeys (o : Obj) (k : String) :
    (clearCachedDependentsStep o k).observedKeys = o.observedKeys := by
  unfold clearCachedDependentsStep
  split
  · dsimp only
    split <;> simp
  · rfl

@[simp] theorem clearCachedDependentsStep_hasPropertyObserverHook (o : Obj) (k : String) :
    (clearCachedDependentsStep o k).hasPropertyObserverHook = o.hasPropertyObserverHook := by
  unfold clearCachedDependentsStep
  split
  · dsimp only
    split <;> simp
  · rfl

@[simp] theorem clearCachedDependentsStep_suspended (o : Obj) (k : String) :
    (clearCachedDependentsStep o k).suspended = o.suspended := by
  unfold clearCachedDependentsStep
  split
  · dsimp only
    split <;> simp
  · rfl

@[simp] theorem clearCachedDependentsStep_chains (o : Obj) (k : String) :
    (clearCachedDependentsStep o k).chains = o.chains := by
  unfold clearCachedDependentsStep
  split
  · dsimp only
    split <;> simp
  · rfl

@[simp] theorem expandWrite_cacheable (acc : Obj × List String) (dk : String) :
    (expandWrite acc dk).1.cacheable = acc.1.cacheable := by
  unfold expandWrite
  dsimp only
  split <;> rfl

@[simp] theorem expandWrite_cachedep (acc : Obj × List String) (dk : String) :
    (expandWrite acc dk).1.cachedep = acc.1.cachedep := by
  unfold expandWrite
  dsimp only
  split <;> rfl

@[simp] theorem expandWrite_dependents (acc : Obj × List String) (dk : String) :
    (expandWrite acc dk).1.dependents = acc.1.dependents := by
  unfold expandWrite
  dsimp only
  split <;> rfl

@[simp] theorem expandWrite_revision (acc : Obj × List String) (dk : String) :
    (expandWrite acc dk).1.revision = acc.1.revision := by
  unfold expandWrite
  dsimp only
  split <;> rfl

@[simp] theorem expandWrite_propertyRevision (acc : Obj × List String) (dk : String) :
    (expandWrite acc dk).1.propertyRevision = acc.1.propertyRevision := by
  unfold expandWrite
  dsimp only
  split <;> rfl

@[simp] theorem expandWrite_changeLevel (acc : Obj × List String) (dk : String) :
    (expandWrite acc dk).1.changeLevel = acc.1.changeLevel := by
  unfold expandWrite
  dsimp only
  split <;> rfl

@[simp] theorem expandWrite_changes (acc : Obj × List String) (dk : String) :
    (expandWrite acc dk).1.changes = acc.1.changes := by
  unfold expandWrite
  dsimp only
  split <;> rfl

@[simp] theorem expandWrite_observers (acc : Obj × List String) (dk : String) :
    (expandWrite acc dk).1.observers = acc.1.observers := by
  unfold expandWrite
  dsimp only
  split <;> rfl

@[simp] theorem expandWrite_localObs (acc : Obj × List String) (dk : String) :
    (expandWrite acc dk).1.localObs = acc.1.localObs := by
  unfold expandWrite
  dsimp only
  split <;> rfl

@[simp] theorem expandWrite_observedKeys (acc : Obj × List String) (dk : String) :
    (expandWrite acc dk).1.observedKeys = acc.1.observedKeys := by
  unfold expandWrite
  dsimp only
  split <;> rfl

@[simp] theorem expandWrite_hasPropertyObserverHook (acc : Obj × List String) (dk : String) :
    (expandWrite acc dk).1.hasPropertyObserverHook = acc.1.hasPropertyObserverHook := by
  unfold expandWrite
  dsimp only
  split <;> rfl

@[simp] theorem expandWrite_suspended (acc : Obj × List String) (dk : String) :
    (expandWrite acc dk).1.suspended = acc.1.suspended := by
  unfold expandWrite
  dsimp only
  split <;> rfl

@[simp] theorem expandWrite_chains (acc : Obj × List String) (dk : String) :
    (expandWrite acc dk).1.chains = acc.1.chains := by
  unfold expandWrite
  dsimp only
  split <;> rfl

@[simp] theorem expandWrite_snd (acc : Obj × List String) (dk : String) :
    (expandWrite acc dk).2 = coreAdd acc.2 dk := by
  unfold expandWrite
  dsimp only
  split <;> rfl

@[simp] theorem expandFold_cacheable (l : List String) (o : Obj) (cs : List String) :
    (l.foldl expandWrite (o, cs)).1.cacheable = o.cacheable := by
  induction l generalizing o cs with
  | nil => rfl
  | cons dk l ih =>
      simp only [List.foldl_cons]
      show (List.foldl expandWrite
        ((expandWrite (o, cs) dk).1, (expandWrite (o, cs) dk).2) l).1.cacheable = o.cacheable
      rw [ih]
      exact expandWrite_cacheable (o, cs) dk

@[simp] theorem expandFold_cachedep (l : List String) (o : Obj) (cs : List String) :
    (l.foldl expandWrite (o, cs)).1.cachedep = o.cachedep := by
  induction l generalizing o cs with
  | nil => rfl
  | cons dk l ih =>
      simp only [List.foldl_cons]
      show (List.foldl expandWrite
        ((expandWrite (o, cs) dk).1, (expandWrite (o, cs) dk).2) l).1.cachedep = o.cachedep
      rw [ih]
      exact expandWrite_cachedep (o, cs) dk

@[simp] theorem expandFold_dependents (l : List String) (o : Obj) (cs : List String) :
    (l.foldl expandWrite (o, cs)).1.dependents = o.dependents := by
  induction l generalizing o cs with
  | nil => rfl
  | cons dk l ih =>
      simp only [List.foldl_cons]
      show (List.foldl expandWrite
        ((expandWrite (o, cs) dk).1, (expandWrite (o, cs) dk).2) l).1.dependents = o.dependents
      rw [ih]
      exact expandWrite_dependents (o, cs) dk

@[simp] theorem expandFold_revision (l : List String) (o : Obj) (cs : List String) :
    (l.foldl expandWrite (o, cs)).1.revision = o.revision := by
  induction l generalizing o cs with
  | nil => rfl
  | cons dk l ih =>
      simp only [List.foldl_cons]
      show (List.foldl expandWrite
        ((expandWrite (o, cs) dk).1, (expandWrite (o, cs) dk).2) l).1.revision = o.revision
      rw [ih]
      exact expandWrite_revision (o, cs) dk

@[simp] theorem expandFold_propertyRevision (l : List String) (o : Obj) (cs : List String) :
    (l.foldl expandWrite (o, cs)).1.propertyRevision = o.propertyRevision := by
  induction l generalizing o cs with
  | nil => rfl
  | cons dk l ih =>
      simp only [List.foldl_cons]
      show (List.foldl expandWrite
        ((expandWrite (o, cs) dk).1, (expandWrite (o, cs) dk).2) l).1.propertyRevision = o.propertyRevision
      rw [ih]
      exact expandWrite_propertyRevision (o, cs) dk

@[simp] theorem expandFold_changeLevel (l : List String) (o : Obj) (cs : List String) :
    (l.foldl expandWrite (o, cs)).1.changeLevel = o.changeLevel := by
  induction l generalizing o cs with
  | nil => rfl
  | cons dk l ih =>
      simp only [List.foldl_cons]
      show (List.foldl expandWrite
        ((expandWrite (o, cs) dk).1, (expandWrite (o, cs) dk).2) l).1.changeLevel = o.changeLevel
      rw [ih]
      exact expandWrite_changeLevel (o, cs) dk

@[simp] theorem expandFold_changes (l : List String) (o : Obj) (cs : List String) :
    (l.foldl expandWrite (o, cs)).1.changes = o.changes := by
  induction l generalizing o cs with
  | nil => rfl
  | cons dk l ih =>
      simp only [List.foldl_cons]
      show (List.foldl expandWrite
        ((expandWrite (o, cs) dk).1, (expandWrite (o, cs) dk).2) l).1.changes = o.changes
      rw [ih]
      exact expandWrite_changes (o, cs) dk

@[simp] theorem expandFold_observers (l : List String) (o : Obj) (cs : List String) :
    (l.foldl expandWrite (o, cs)).1.observers = o.observers := by
  induction l generalizing o cs with
  | nil => rfl
  | cons dk l ih =>
      simp only [List.foldl_cons]
      show (List.foldl expandWrite
        ((expandWrite (o, cs) dk).1, (expandWrite (o, cs) dk).2) l).1.observers = o.observers
      rw [ih]
      exact expandWrite_observers (o, cs) dk

@[simp] theorem expandFold_localObs (l : List String) (o : Obj) (cs : List String) :
    (l.foldl expandWrite (o, cs)).1.localObs = o.localObs := by
  induction l generalizing o cs with
  | nil => rfl
  | cons dk l ih =>
      simp only [List.foldl_cons]
      show (List.foldl expandWrite
        ((expandWrite (o, cs) dk).1, (expandWrite (o, cs) dk).2) l).1.localObs = o.localObs
      rw [ih]
      exact expandWrite_localObs (o, cs) dk

@[simp] theorem expandFold_observedKeys (l : List String) (o : Obj) (cs : List String) :
    (l.foldl expandWrite (o, cs)).1.observedKeys = o.observedKeys := by
  induction l generalizing o cs with
  | nil => rfl
  | cons dk l ih =>
      simp only [List.foldl_cons]
      show (List.foldl expandWrite
        ((expandWrite (o, cs) dk).1, (expandWrite (o, cs) dk).2) l).1.observedKeys = o.observedKeys
      rw [ih]
      exact expandWrite_observedKeys (o, cs) dk

@[simp] theorem expandFold_hasPropertyObserverHook (l : List String) (o : Obj) (cs : List String) :
    (l.foldl expandWrite (o, cs)).1.hasPropertyObserverHook = o.hasPropertyObserverHook := by
  induction l generalizing o cs with
  | nil => rfl
  | cons dk l ih =>
      simp only [List.foldl_cons]
      show (List.foldl expandWrite
        ((expandWrite (o, cs) dk).1, (expandWrite (o, cs) dk).2) l).1.hasPropertyObserverHook = o.hasPropertyObserverHook
      rw [ih]
      exact expandWrite_hasPropertyObserverHook (o, cs) dk

@[simp] theorem expandFold_suspended (l : List String) (o : Obj) (cs : List String) :
    (l.foldl expandWrite (o, cs)).1.suspended = o.suspended := by
  induction l generalizing o cs with
  | nil => rfl
  | cons dk l ih =>
      simp only [List.foldl_cons]
      show (List.foldl expandWrite
        ((expandWrite (o, cs) dk).1, (expandWrite (o, cs) dk).2) l).1.suspended = o.suspended
      rw [ih]
      exact expandWrite_suspended (o, cs) dk

@[simp] theorem expandFold_chains (l : List String) (o : Obj) (cs : List String) :
    (l.foldl expandWrite (o, cs)).1.chains = o.chains := by
  induction l generalizing o cs with
  | nil => rfl
  | cons dk l ih =>
      simp only [List.foldl_cons]
      show (List.foldl expandWrite
        ((expandWrite (o, cs) dk).1, (expandWrite (o, cs) dk).2) l).1.chains = o.chains
      rw [ih]
      exact expandWrite_chains (o, cs) dk

theorem expandFold_snd (l : List String) (o : Obj) (cs : List String) :
    (l.foldl expandWrite (o, cs)).2 = coreAddEach cs l := by
  induction l generalizing o cs with
  | nil => rfl
  | cons dk l ih =>
      simp only [List.foldl_cons]
      show (List.foldl expandWrite
        ((expandWrite (o, cs) dk).1, (expandWrite (o, cs) dk).2) l).2
        = coreAddEach cs (dk :: l)
      rw [ih, expandWrite_snd]
      rfl

@[simp] theorem expandChanges_cacheable (fuel : Nat) (o : Obj) (cs : List String) (idx : Nat) :
    (expandChanges o fuel cs idx).1.cacheable = o.cacheable := by
  induction fuel generalizing o cs idx with
  | zero => rfl
  | succ fuel ih =>
      rw [expandChanges]
      split
      · split
        · exact ih o cs (idx + 1)
        · rw [ih]
          unfold expandOneKey
          rw [expandFold_cacheable]
          simp
      · rfl

@[simp] theorem expandChanges_cachedep (fuel : Nat) (o : Obj) (cs : List String) (idx : Nat) :
    (expandChanges o fuel cs idx).1.cachedep = o.cachedep := by
  induction fuel generalizing o cs idx with
  | zero => rfl
  | succ fuel ih =>
      rw [expandChanges]
      split
      · split
        · exact ih o cs (idx + 1)
        · rw [ih]
          unfold expandOneKey
          rw [expandFold_cachedep]
          simp
      · rfl

@[simp] theorem expandChanges_dependents (fuel : Nat) (o : Obj) (cs : List String) (idx : Nat) :
    (expandChanges o fuel cs idx).1.dependents = o.dependents := by
  induction fuel generalizing o cs idx with
  | zero => rfl
  | succ fuel ih =>
      rw [expandChanges]
      split
      · split
        · exact ih o cs (idx + 1)
        · rw [ih]
          unfold expandOneKey
          rw [expandFold_dependents]
          simp
      · rfl

@[simp] theorem expandChanges_revision (fuel : Nat) (o : Obj) (cs : List String) (idx : Nat) :
    (expandChanges o fuel cs idx).1.revision = o.revision := by
  induction fuel generalizing o cs idx with
  | zero => rfl
  | succ fuel ih =>
      rw [expandChanges]
      split
      · split
        · exact ih o cs (idx + 1)
        · rw [ih]
          unfold expandOneKey
          rw [expandFold_revision]
          simp
      · rfl

@[simp] theorem expandChanges_propertyRevision (fuel : Nat) (o : Obj) (cs : List String) (idx : Nat) :
    (expandChanges o fuel cs idx).1.propertyRevision = o.propertyRevision := by
  induction fuel generalizing o cs idx with
  | zero => rfl
  | succ fuel ih =>
      rw [expandChanges]
      split
      · split
        · exact ih o cs (idx + 1)
        · rw [ih]
          unfold expandOneKey
          rw [expandFold_propertyRevision]
          simp
      · rfl

@[simp] theorem expandChanges_changeLevel (fuel : Nat) (o : Obj) (cs : List String) (idx : Nat) :
    (expandChanges o fuel cs idx).1.changeLevel = o.changeLevel := by
  induction fuel generalizing o cs idx with
  | zero => rfl
  | succ fuel ih =>
      rw [expandChanges]
      split
      · split
        · exact ih o cs (idx + 1)
        · rw [ih]
          unfold expandOneKey
          rw [expandFold_changeLevel]
          simp
      · rfl

@[simp] theorem expandChanges_changes (fuel : Nat) (o : Obj) (cs : List String) (idx : Nat) :
    (expandChanges o fuel cs idx).1.changes = o.changes := by
  induction fuel generalizing o cs idx with
  | zero => rfl
  | succ fuel ih =>
      rw [expandChanges]
      split
      · split
        · exact ih o cs (idx + 1)
        · rw [ih]
          unfold expandOneKey
          rw [expandFold_changes]
          simp
      · rfl

@[simp] theorem expandChanges_observers (fuel : Nat) (o : Obj) (cs : List String) (idx : Nat) :
    (expandChanges o fuel cs idx).1.observers = o.observers := by
  induction fuel generalizing o cs idx with
  | zero => rfl
  | succ fuel ih =>
      rw [expandChanges]
      split
      · split
        · exact ih o cs (idx + 1)
        · rw [ih]
          unfold expandOneKey
          rw [expandFold_observers]
          simp
      · rfl

@[simp] theorem expandChanges_localObs (fuel : Nat) (o : Obj) (cs : List String) (idx : Nat) :
    (expandChanges o fuel cs idx).1.localObs = o.localObs := by
  induction fuel generalizing o cs idx with
  | zero => rfl
  | succ fuel ih =>
      rw [expandChanges]
      split
      · split
        · exact ih o cs (idx + 1)
        · rw [ih]
          unfold expandOneKey
          rw [expandFold_localObs]
          simp
      · rfl

@[simp] theorem expandChanges_observedKeys (fuel : Nat) (o : Obj) (cs : List String) (idx : Nat) :
    (expandChanges o fuel cs idx).1.observedKeys = o.observedKeys := by
  induction fuel generalizing o cs idx with
  | zero => rfl
  | succ fuel ih =>
      rw [expandChanges]
      split
      · split
        · exact ih o cs (idx + 1)
        · rw [ih]
          unfold expandOneKey
          rw [expandFold_observedKeys]
          simp
      · rfl

@[simp] theorem expandChanges_hasPropertyObserverHook (fuel : Nat) (o : Obj) (cs : List String) (idx : Nat) :
    (expandChanges o fuel cs idx).1.hasPropertyObserverHook = o.hasPropertyObserverHook := by
  induction fuel generalizing o cs idx with
  | zero => rfl
  | succ fuel ih =>
      rw [expandChanges]
      split
      · split
        · exact ih o cs (idx + 1)
        · rw [ih]
          unfold expandOneKey
          rw [expandFold_hasPropertyObserverHook]
          simp
      · rfl

@[simp] theorem expandChanges_suspended (fuel : Nat) (o : Obj) (cs : List String) (idx : Nat) :
    (expandChanges o fuel cs idx).1.suspended = o.suspended := by
  induction fuel generalizing o cs idx with
  | zero => rfl
  | succ fuel ih =>
      rw [expandChanges]
      split
      · split
        · exact ih o cs (idx + 1)
        · rw [ih]
          unfold expandOneKey
          rw [expandFold_suspended]
          simp
      · rfl

@[simp] theorem expandChanges_chains (fuel : Nat) (o : Obj) (cs : List String) (idx : Nat) :
    (expandChanges o fuel cs idx).1.chains = o.chains := by
  induction fuel generalizing o cs idx with
  | zero => rfl
  | succ fuel ih =>
      rw [expandChanges]
      split
      · split
        · exact ih o cs (idx + 1)
        · rw [ih]
          unfold expandOneKey
          rw [expandFold_chains]
          simp
      · rfl

@[simp] theorem pdcOwnClear_props (o : Obj) (key : String) (keep : Bool) :
    (pdcOwnClear o key keep).props = o.props := by
  unfold pdcOwnClear
  split
  · split <;> rfl
  · rfl

@[simp] theorem pdcOwnClear_cacheable (o : Obj) (key : String) (keep : Bool) :
    (pdcOwnClear o key keep).cacheable = o.cacheable := by
  unfold pdcOwnClear
  split
  · split <;> rfl
  · rfl

@[simp] theorem pdcOwnClear_cachedep (o : Obj) (key : String) (keep : Bool) :
    (pdcOwnClear o key keep).cachedep = o.cachedep := by
  unfold pdcOwnClear
  split
  · split <;> rfl
  · rfl

@[simp] theorem pdcOwnClear_dependents (o : Obj) (key : String) (keep : Bool) :
    (pdcOwnClear o key keep).dependents = o.dependents := by
  unfold pdcOwnClear
  split
  · split <;> rfl
  · rfl

@[simp] theorem pdcOwnClear_revision (o : Obj) (key : String) (keep : Bool) :
    (pdcOwnClear o key keep).revision = o.revision := by
  unfold pdcOwnClear
  split
  · split <;> rfl
  · rfl

@[simp] theorem pdcOwnClear_propertyRevision (o : Obj) (key : String) (keep : Bool) :
    (pdcOwnClear o key keep).propertyRevision = o.propertyRevision := by
  unfold pdcOwnClear
  split
  · split <;> rfl
  · rfl

@[simp] theorem pdcOwnClear_changeLevel (o : Obj) (key : String) (keep : Bool) :
    (pdcOwnClear o key keep).changeLevel = o.changeLevel := by
  unfold pdcOwnClear
  split
  · split <;> rfl
  · rfl

@[simp] theorem pdcOwnClear_changes (o : Obj) (key : String) (keep : Bool) :
    (pdcOwnClear o key keep).changes = o.changes := by
  unfold pdcOwnClear
  split
  · split <;> rfl
  · rfl

@[simp] theorem pdcOwnClear_observers (o : Obj) (key : String) (keep : Bool) :
    (pdcOwnClear o key keep).observers = o.observers := by
  unfold pdcOwnClear
  split
  · split <;> rfl
  · rfl

@[simp] theorem pdcOwnClear_localObs (o : Obj) (key : String) (keep : Bool) :
    (pdcOwnClear o key keep).localObs = o.localObs := by
  unfold pdcOwnClear
  split
  · split <;> rfl
  · rfl

@[simp] theorem pdcOwnClear_observedKeys (o : Obj) (key : String) (keep : Bool) :
    (pdcOwnClear o key keep).observedKeys = o.observedKeys := by
  unfold pdcOwnClear
  split
  · split <;> rfl
  · rfl

@[simp] theorem pdcOwnClear_hasPropertyObserverHook (o : Obj) (key : String) (keep : Bool) :
    (pdcOwnClear o key keep).hasPropertyObserverHook = o.hasPropertyObserverHook := by
  unfold pdcOwnClear
  split
  · split <;> rfl
  · rfl

@[simp] theorem pdcOwnClear_suspended (o : Obj) (key : String) (keep : Bool) :
    (pdcOwnClear o key keep).suspended = o.suspended := by
  unfold pdcOwnClear
  split
  · split <;> rfl
  · rfl

@[simp] theorem pdcOwnClear_chains (o : Obj) (key : String) (keep : Bool) :
    (pdcOwnClear o key keep).chains = o.chains := by
  unfold pdcOwnClear
  split
  · split <;> rfl
  · rfl

@[simp] theorem pdcClearCaches_props (o : Obj) (key : String) (keep : Bool) :
    (pdcClearCaches o key keep).props = o.props := by
  unfold pdcClearCaches
  split
  · dsimp only
    split <;> simp
  · rfl

@[simp] theorem pdcClearCaches_cacheable (o : Obj) (key : String) (keep : Bool) :
    (pdcClearCaches o key keep).cacheable = o.cacheable := by
  unfold pdcClearCaches
  split
  · dsimp only
    split <;> simp
  · rfl

@[simp] theorem pdcClearCaches_dependents (o : Obj) (key : String) (keep : Bool) :
    (pdcClearCaches o key keep).dependents = o.dependents := by
  unfold pdcClearCaches
  split
  · dsimp only
    split <;> simp
  · rfl

@[simp] theorem pdcClearCaches_revision (o : Obj) (key : String) (keep : Bool) :
    (pdcClearCaches o key keep).revision = o.revision := by
  unfold pdcClearCaches
  split
  · dsimp only
    split <;> simp
  · rfl

@[simp] theorem pdcClearCaches_propertyRevision (o : Obj) (key : String) (keep : Bool) :
    (pdcClearCaches o key keep).propertyRevision = o.propertyRevision := by
  unfold pdcClearCaches
  split
  · dsimp only
    split <;> simp
  · rfl

@[simp] theorem pdcClearCaches_changeLevel (o : Obj) (key : String) (keep : Bool) :
    (pdcClearCaches o key keep).changeLevel = o.changeLevel := by
  unfold pdcClearCaches
  split
  · dsimp only
    split <;> simp
  · rfl

@[simp] theorem pdcClearCaches_changes (o : Obj) (key : String) (keep : Bool) :
    (pdcClearCaches o key keep).changes = o.changes := by
  unfold pdcClearCaches
  split
  · dsimp only
    split <;> simp
  · rfl

@[simp] theorem pdcClearCaches_observers (o : Obj) (key : String) (keep : Bool) :
    (pdcClearCaches o key keep).observers = o.observers := by
  unfold pdcClearCaches
  split
  · dsimp only
    split <;> simp
  · rfl

@[simp] theorem pdcClearCaches_localObs (o : Obj) (key : String) (keep : Bool) :
    (pdcClearCaches o key keep).localObs = o.localObs := by
  unfold pdcClearCaches
  split
  · dsimp only
    split <;> simp
  · rfl

@[simp] theorem pdcClearCaches_observedKeys (o : Obj) (key : String) (keep : Bool) :
    (pdcClearCaches o key keep).observedKeys = o.observedKeys := by
  unfold pdcClearCaches
  split
  · dsimp only
    split <;> simp
  · rfl

@[simp] theorem pdcClearCaches_hasPropertyObserverHook (o : Obj) (key : String) (keep : Bool) :
    (pdcClearCaches o key keep).hasPropertyObserverHook = o.hasPropertyObserverHook := by
  unfold pdcClearCaches
  split
  · dsimp only
    split <;> simp
  · rfl

@[simp] theorem pdcClearCaches_suspended (o : Obj) (key : String) (keep : Bool) :
    (pdcClearCaches o key keep).suspended = o.suspended := by
  unfold pdcClearCaches
  split
  · dsimp only
    split <;> simp
  · rfl

@[simp] theorem pdcClearCaches_chains (o : Obj) (key : String) (keep : Bool) :
    (pdcClearCaches o key keep).chains = o.chains := by
  unfold pdcClearCaches
  split
  · dsimp only
    split <;> simp
  · rfl

theorem notifyMembers_fst (key : String) (rev : Nat) (ms : List Member) :
    (notifyMembers key rev ms).1 =
      ms.map fun m =>
        if m.lastNotified = rev then m else { m with lastNotified := rev } := by
  induction ms with
  | nil => rfl
  | cons m rest ih =>
      by_cases h : m.lastNotified = rev <;> simp [notifyMembers, h, ih]

theorem notifyMembers_snd (key : String) (rev : Nat) (ms : List Member) :
    (notifyMembers key rev ms).2 =
      (ms.filter fun m => m.lastNotified != rev).map fun m =>
        Event.memberFire key m.target m.method m.context rev := by
  induction ms with
  | nil => rfl
  | cons m rest ih =>
      by_cases h : m.lastNotified = rev <;> simp [notifyMembers, h, ih]

theorem processKey_fst (o : Obj) (key : String) (rev : Nat) :
    (processKey o key rev).1 =
      { o with observers := fun k =>
          if k = key then (notifyMembers key rev (o.observers key)).1
          else o.observers k } := rfl

@[simp] theorem processKey_props (o : Obj) (key : String) (rev : Nat) :
    (processKey o key rev).1.props = o.props := rfl

@[simp] theorem processKey_cache (o : Obj) (key : String) (rev : Nat) :
    (processKey o key rev).1.cache = o.cache := rfl

@[simp] theorem processKey_cacheable (o : Obj) (key : String) (rev : Nat) :
    (processKey o key rev).1.cacheable = o.cacheable := rfl

@[simp] theorem processKey_cachedep (o : Obj) (key : String) (rev : Nat) :
    (processKey o key rev).1.cachedep = o.cachedep := rfl

@[simp] theorem processKey_dependents (o : Obj) (key : String) (rev : Nat) :
    (processKey o key rev).1.dependents = o.dependents := rfl

@[simp] theorem processKey_revision (o : Obj) (key : String) (rev : Nat) :
    (processKey o key rev).1.revision = o.revision := rfl

@[simp] theorem processKey_propertyRevision (o : Obj) (key : String) (rev : Nat) :
    (processKey o key rev).1.propertyRevision = o.propertyRevision := rfl

@[simp] theorem processKey_changeLevel (o : Obj) (key : String) (rev : Nat) :
    (processKey o key rev).1.changeLevel = o.changeLevel := rfl

@[simp] theorem processKey_changes (o : Obj) (key : String) (rev : Nat) :
    (processKey o key rev).1.changes = o.changes := rfl

@[simp] theorem processKey_localObs (o : Obj) (key : String) (rev : Nat) :
    (processKey o key rev).1.localObs = o.localObs := rfl

@[simp] theorem processKey_observedKeys (o : Obj) (key : String) (rev : Nat) :
    (processKey o key rev).1.observedKeys = o.observedKeys := rfl

@[simp] theorem processKey_hasPropertyObserverHook (o : Obj) (key : String) (rev : Nat) :
    (processKey o key rev).1.hasPropertyObserverHook = o.hasPropertyObserverHook := rfl

@[simp] theorem processKey_suspended (o : Obj) (key : String) (rev : Nat) :
    (processKey o key rev).1.suspended = o.suspended := rfl

@[simp] theorem processKey_chains (o : Obj) (key : String) (rev : Nat) :
    (processKey o key rev).1.chains = o.chains := rfl

theorem processKey_observers_ne (o : Obj) (key : String) (rev : Nat)
    (k : String) (h : k ≠ key) :
    (processKey o key rev).1.observers k = o.observers k := by
  rw [processKey_fst]
  simp [h]

theorem processKey_observers_self (o : Obj) (key : String) (rev : Nat) :
    (processKey o key rev).1.observers key =
      (notifyMembers key rev (o.observers key)).1 := by
  rw [processKey_fst]
  simp

theorem processKey_snd (o : Obj) (key : String) (rev : Nat) :
    (processKey o key rev).2 =
      (notifyMembers key rev (o.observers key)).2
      ++ localEvs o key
      ++ (if key = "*" then []
          else (o.observers "*").map fun m => Event.starFire key m.target m.method)
      ++ hookEvs o key rev := by
  by_cases h : key = "*" <;> simp [processKey, h]

@[simp] theorem fanoutAux_props (rev : Nat) (l : List String) (o : Obj) :
    (fanoutAux rev o l).1.props = o.props := by
  induction l generalizing o with
  | nil => rfl
  | cons k l ih => simp [fanoutAux, ih]

@[simp] theorem fanoutAux_cache (rev : Nat) (l : List String) (o : Obj) :
    (fanoutAux rev o l).1.cache = o.cache := by
  induction l generalizing o with
  | nil => rfl
  | cons k l ih => simp [fanoutAux, ih]

@[simp] theorem fanoutAux_cacheable (rev : Nat) (l : List String) (o : Obj) :
    (fanoutAux rev o l).1.cacheable = o.cacheable := by
  induction l generalizing o with
  | nil => rfl
  | cons k l ih => simp [fanoutAux, ih]

@[simp] theorem fanoutAux_cachedep (rev : Nat) (l : List String) (o : Obj) :
    (fanoutAux rev o l).1.cachedep = o.cachedep := by
  induction l generalizing o with
  | nil => rfl
  | cons k l ih => simp [fanoutAux, ih]

@[simp] theorem fanoutAux_dependents (rev : Nat) (l : List String) (o : Obj) :
    (fanoutAux rev o l).1.dependents = o.dependents := by
  induction l generalizing o with
  | nil => rfl
  | cons k l ih => simp [fanoutAux, ih]

@[simp] theorem fanoutAux_revision (rev : Nat) (l : List String) (o : Obj) :
    (fanoutAux rev o l).1.revision = o.revision := by
  induction l generalizing o with
  | nil => rfl
  | cons k l ih => simp [fanoutAux, ih]

@[simp] theorem fanoutAux_propertyRevision (rev : Nat) (l : List String) (o : Obj) :
    (fanoutAux rev o l).1.propertyRevision = o.propertyRevision := by
  induction l generalizing o with
  | nil => rfl
  | cons k l ih => simp [fanoutAux, ih]

@[simp] theorem fanoutAux_changeLevel (rev : Nat) (l : List String) (o : Obj) :
    (fanoutAux rev o l).1.changeLevel = o.changeLevel := by
  induction l generalizing o with
  | nil => rfl
  | cons k l ih => simp [fanoutAux, ih]

@[simp] theorem fanoutAux_changes (rev : Nat) (l : List String) (o : Obj) :
    (fanoutAux rev o l).1.changes = o.changes := by
  induction l generalizing o with
  | nil => rfl
  | cons k l ih => simp [fanoutAux, ih]

@[simp] theorem fanoutAux_localObs (rev : Nat) (l : List String) (o : Obj) :
    (fanoutAux rev o l).1.localObs = o.localObs := by
  induction l generalizing o with
  | nil => rfl
  | cons k l ih => simp [fanoutAux, ih]

@[simp] theorem fanoutAux_observedKeys (rev : Nat) (l : List String) (o : Obj) :
    (fanoutAux rev o l).1.observedKeys = o.observedKeys := by
  induction l generalizing o with
  | nil => rfl
  | cons k l ih => simp [fanoutAux, ih]

@[simp] theorem fanoutAux_hasPropertyObserverHook (rev : Nat) (l : List String) (o : Obj) :
    (fanoutAux rev o l).1.hasPropertyObserverHook = o.hasPropertyObserverHook := by
  induction l generalizing o with
  | nil => rfl
  | cons k l ih => simp [fanoutAux, ih]

@[simp] theorem fanoutAux_suspended (rev : Nat) (l : List String) (o : Obj) :
    (fanoutAux rev o l).1.suspended = o.suspended := by
  induction l generalizing o with
  | nil => rfl
  | cons k l ih => simp [fanoutAux, ih]

@[simp] theorem fanoutAux_chains (rev : Nat) (l : List String) (o : Obj) :
    (fanoutAux rev o l).1.chains = o.chains := by
  induction l generalizing o with
  | nil => rfl
  | cons k l ih => simp [fanoutAux, ih]

theorem fanoutAux_observers_of_not_mem (rev : Nat) (l : List String)
    (o : Obj) (k : String) (h : k ∉ l) :
    (fanoutAux rev o l).1.observers k = o.observers k := by
  induction l generalizing o with
  | nil => rfl
  | cons key l ih =>
      have hk : k ≠ key := fun he => h (he ▸ List.mem_cons_self key l)
      have hl : k ∉ l := fun hm => h (List.mem_cons_of_mem key hm)
      rw [fanoutAux]
      dsimp only
      rw [ih _ hl, processKey_observers_ne _ _ _ _ hk]

theorem coreAddEach_sub (l : List String) (cs : List String) :
    cs ⊆ coreAddEach cs l :=
  fun _ hx => coreAddEach_mem_of_mem l hx

theorem expandChanges_sub (fuel : Nat) (o : Obj) (cs : List String)
    (idx : Nat) : cs ⊆ (expandChanges o fuel cs idx).2 := by
  induction fuel generalizing o cs idx with
  | zero => exact fun _ h => h
  | succ fuel ih =>
      rw [expandChanges]
      split
      · split
        · exact ih o cs (idx + 1)
        · intro x hx
          refine ih _ _ (idx + 1) ?_
          unfold expandOneKey
          rw [expandFold_snd]
          exact coreAddEach_sub _ _ hx
      · exact fun _ h => h

theorem expandChanges_nodup (fuel : Nat) (o : Obj) (cs : List String)
    (idx : Nat) (h : cs.Nodup) : (expandChanges o fuel cs idx).2.Nodup := by
  induction fuel generalizing o cs idx with
  | zero => exact h
  | succ fuel ih =>
      rw [expandChanges]
      split
      · split
        · exact ih o cs (idx + 1) h
        · refine ih _ _ (idx + 1) ?_
          unfold expandOneKey
          rw [expandFold_snd]
          exact coreAddEach_nodup h _
      · exact h

@[simp] theorem notifySetup_cacheable (o : Obj) (key : Option String) :
    (notifySetup o key).1.cacheable = o.cacheable := by
  unfold notifySetup
  dsimp only
  simp

@[simp] theorem notifySetup_cachedep (o : Obj) (key : Option String) :
    (notifySetup o key).1.cachedep = o.cachedep := by
  unfold notifySetup
  dsimp only
  simp

@[simp] theorem notifySetup_dependents (o : Obj) (key : Option String) :
    (notifySetup o key).1.dependents = o.dependents := by
  unfold notifySetup
  dsimp only
  simp

@[simp] theorem notifySetup_revision (o : Obj) (key : Option String) :
    (notifySetup o key).1.revision = o.revision := by
  unfold notifySetup
  dsimp only
  simp

@[simp] theorem notifySetup_changeLevel (o : Obj) (key : Option String) :
    (notifySetup o key).1.changeLevel = o.changeLevel := by
  unfold notifySetup
  dsimp only
  simp

@[simp] theorem notifySetup_observers (o : Obj) (key : Option String) :
    (notifySetup o key).1.observers = o.observers := by
  unfold notifySetup
  dsimp only
  simp

@[simp] theorem notifySetup_localObs (o : Obj) (key : Option String) :
    (notifySetup o key).1.localObs = o.localObs := by
  unfold notifySetup
  dsimp only
  simp

@[simp] theorem notifySetup_observedKeys (o : Obj) (key : Option String) :
    (notifySetup o key).1.observedKeys = o.observedKeys := by
  unfold notifySetup
  dsimp only
  simp

@[simp] theorem notifySetup_hasPropertyObserverHook (o : Obj) (key : Option String) :
    (notifySetup o key).1.hasPropertyObserverHook = o.hasPropertyObserverHook := by
  unfold notifySetup
  dsimp only
  simp

@[simp] theorem notifySetup_suspended (o : Obj) (key : Option String) :
    (notifySetup o key).1.suspended = o.suspended := by
  unfold notifySetup
  dsimp only
  simp

@[simp] theorem notifySetup_chains (o : Obj) (key : Option String) :
    (notifySetup o key).1.chains = o.chains := by
  unfold notifySetup
  dsimp only
  simp

@[simp] theorem notifySetup_propertyRevision (o : Obj) (key : Option String) :
    (notifySetup o key).1.propertyRevision = o.propertyRevision + 1 := by
  unfold notifySetup
  dsimp only
  simp

@[simp] theorem notifySetup_changes (o : Obj) (key : Option String) :
    (notifySetup o key).1.changes = none := by
  unfold notifySetup
  dsimp only
  simp

theorem notifySetup_nodup (o : Obj) (key : Option String)
    (h : (o.changes.getD []).Nodup) : (notifySetup o key).2.Nodup := by
  unfold notifySetup
  dsimp only
  rcases key with _ | k
  · exact expandChanges_nodup _ _ _ _ h
  · dsimp only
    by_cases hk : k = "*"
    · rw [if_pos hk]
      exact expandChanges_nodup _ _ _ _ (coreAddEach_nodup (coreAdd_nodup h _) _)
    · rw [if_neg hk]
      exact expandChanges_nodup _ _ _ _ (coreAdd_nodup h _)

theorem notifySetup_mem (o : Obj) (key : Option String) (k : String)
    (h : k ∈ o.changes.getD []) : k ∈ (notifySetup o key).2 := by
  unfold notifySetup
  dsimp only
  rcases key with _ | k0
  · exact expandChanges_sub _ _ _ _ h
  · dsimp only
    by_cases hk : k0 = "*"
    · rw [if_pos hk]
      exact expandChanges_sub _ _ _ _
        (coreAddEach_sub _ _ (coreAdd_mem_of_mem _ h))
    · rw [if_neg hk]
      exact expandChanges_sub _ _ _ _ (coreAdd_mem_of_mem _ h)

@[simp] theorem notifyPropertyObservers_cacheable (o : Obj) (key : Option String) :
    (notifyPropertyObservers o key).1.cacheable = o.cacheable := by
  unfold notifyPropertyObservers
  dsimp only
  split <;> simp

@[simp] theorem notifyPropertyObservers_cachedep (o : Obj) (key : Option String) :
    (notifyPropertyObservers o key).1.cachedep = o.cachedep := by
  unfold notifyPropertyObservers
  dsimp only
  split <;> simp

@[simp] theorem notifyPropertyObservers_dependents (o : Obj) (key : Option String) :
    (notifyPropertyObservers o key).1.dependents = o.dependents := by
  unfold notifyPropertyObservers
  dsimp only
  split <;> simp

@[simp] theorem notifyPropertyObservers_revision (o : Obj) (key : Option String) :
    (notifyPropertyObservers o key).1.revision = o.revision := by
  unfold notifyPropertyObservers
  dsimp only
  split <;> simp

@[simp] theorem notifyPropertyObservers_localObs (o : Obj) (key : Option String) :
    (notifyPropertyObservers o key).1.localObs = o.localObs := by
  unfold notifyPropertyObservers
  dsimp only
  split <;> simp

@[simp] theorem notifyPropertyObservers_observedKeys (o : Obj) (key : Option String) :
    (notifyPropertyObservers o key).1.observedKeys = o.observedKeys := by
  unfold notifyPropertyObservers
  dsimp only
  split <;> simp

@[simp] theorem notifyPropertyObservers_hasPropertyObserverHook (o : Obj) (key : Option String) :
    (notifyPropertyObservers o key).1.hasPropertyObserverHook = o.hasPropertyObserverHook := by
  unfold notifyPropertyObservers
  dsimp only
  split <;> simp

@[simp] theorem notifyPropertyObservers_suspended (o : Obj) (key : Option String) :
    (notifyPropertyObservers o key).1.suspended = o.suspended := by
  unfold notifyPropertyObservers
  dsimp only
  split <;> simp

@[simp] theorem notifyPropertyObservers_chains (o : Obj) (key : Option String) :
    (notifyPropertyObservers o key).1.chains = o.chains := by
  unfold notifyPropertyObservers
  dsimp only
  split <;> simp

@[simp] theorem notifyPropertyObservers_changeLevel (o : Obj)
    (key : Option String) :
    (notifyPropertyObservers o key).1.changeLevel = o.changeLevel := by
  unfold notifyPropertyObservers
  dsimp only
  split <;> simp

theorem notifyPropertyObservers_propertyRevision_mono (o : Obj)
    (key : Option String) :
    o.propertyRevision ≤ (notifyPropertyObservers o key).1.propertyRevision := by
  unfold notifyPropertyObservers
  dsimp only
  split <;> simp [Nat.le_succ]

@[simp] theorem propertyDidChange_cacheable (o : Obj) (key : String) (keep : Bool) :
    (propertyDidChange o key keep).1.cacheable = o.cacheable := by
  unfold propertyDidChange
  dsimp only
  split <;> simp

@[simp] theorem propertyDidChange_dependents (o : Obj) (key : String) (keep : Bool) :
    (propertyDidChange o key keep).1.dependents = o.dependents := by
  unfold propertyDidChange
  dsimp only
  split <;> simp

@[simp] theorem propertyDidChange_localObs (o : Obj) (key : String) (keep : Bool) :
    (propertyDidChange o key keep).1.localObs = o.localObs := by
  unfold propertyDidChange
  dsimp only
  split <;> simp

@[simp] theorem propertyDidChange_observedKeys (o : Obj) (key : String) (keep : Bool) :
    (propertyDidChange o key keep).1.observedKeys = o.observedKeys := by
  unfold propertyDidChange
  dsimp only
  split <;> simp

@[simp] theorem propertyDidChange_hasPropertyObserverHook (o : Obj) (key : String) (keep : Bool) :
    (propertyDidChange o key keep).1.hasPropertyObserverHook = o.hasPropertyObserverHook := by
  unfold propertyDidChange
  dsimp only
  split <;> simp

@[simp] theorem propertyDidChange_suspended (o : Obj) (key : String) (keep : Bool) :
    (propertyDidChange o key keep).1.suspended = o.suspended := by
  unfold propertyDidChange
  dsimp only
  split <;> simp

@[simp] theorem propertyDidChange_chains (o : Obj) (key : String) (keep : Bool) :
    (propertyDidChange o key keep).1.chains = o.chains := by
  unfold propertyDidChange
  dsimp only
  split <;> simp

@[simp] theorem propertyDidChange_changeLevel (o : Obj) (key : String) (keep : Bool) :
    (propertyDidChange o key keep).1.changeLevel = o.changeLevel := by
  unfold propertyDidChange
  dsimp only
  split <;> simp

@[simp] theorem propertyDidChange_revision (o : Obj) (key : String)
    (keep : Bool) :
    (propertyDidChange o key keep).1.revision = o.revision + 1 := by
  unfold propertyDidChange
  dsimp only
  split <;> simp

theorem propertyDidChange_propertyRevision_mono (o : Obj) (key : String)
    (keep : Bool) :
    o.propertyRevision ≤ (propertyDidChange o key keep).1.propertyRevision := by
  unfold propertyDidChange
  dsimp only
  split
  · simp
  · calc o.propertyRevision
        = (pdcClearCaches { o with revision := o.revision + 1 } key keep).propertyRevision := by simp
      _ ≤ _ := notifyPropertyObservers_propertyRevision_mono _ _

@[simp] theorem propertyWillChange_eq (o : Obj) (key : String) :
    propertyWillChange o key = o := rfl

@[simp] theorem set_cacheable (o : Obj) (key : String) (v : JSVal) :
    (set o key v).1.cacheable = o.cacheable := by
  unfold set
  dsimp only
  split <;> (try split) <;> (try split) <;> simp

@[simp] theorem set_dependents (o : Obj) (key : String) (v : JSVal) :
    (set o key v).1.dependents = o.dependents := by
  unfold set
  dsimp only
  split <;> (try split) <;> (try split) <;> simp

@[simp] theorem set_localObs (o : Obj) (key : String) (v : JSVal) :
    (set o key v).1.localObs = o.localObs := by
  unfold set
  dsimp only
  split <;> (try split) <;> (try split) <;> simp

@[simp] theorem set_observedKeys (o : Obj) (key : String) (v : JSVal) :
    (set o key v).1.observedKeys = o.observedKeys := by
  unfold set
  dsimp only
  split <;> (try split) <;> (try split) <;> simp

@[simp] theorem set_hasPropertyObserverHook (o : Obj) (key : String) (v : JSVal) :
    (set o key v).1.hasPropertyObserverHook = o.hasPropertyObserverHook := by
  unfold set
  dsimp only
  split <;> (try split) <;> (try split) <;> simp

@[simp] theorem set_suspended (o : Obj) (key : String) (v : JSVal) :
    (set o key v).1.suspended = o.suspended := by
  unfold set
  dsimp only
  split <;> (try split) <;> (try split) <;> simp

@[simp] theorem set_chains (o : Obj) (key : String) (v : JSVal) :
    (set o key v).1.chains = o.chains := by
  unfold set
  dsimp only
  split <;> (try split) <;> (try split) <;> simp

@[simp] theorem set_changeLevel (o : Obj) (key : String) (v : JSVal) :
    (set o key v).1.changeLevel = o.changeLevel := by
  unfold set
  dsimp only
  split <;> (try split) <;> (try split) <;> simp

@[simp] theorem get_props (o : Obj) (key : String) :
    (get o key).1.props = o.props := by
  unfold get
  dsimp only
  split <;> (try split) <;> (try split) <;> simp

@[simp] theorem get_cacheable (o : Obj) (key : String) :
    (get o key).1.cacheable = o.cacheable := by
  unfold get
  dsimp only
  split <;> (try split) <;> (try split) <;> simp

@[simp] theorem get_cachedep (o : Obj) (key : String) :
    (get o key).1.cachedep = o.cachedep := by
  unfold get
  dsimp only
  split <;> (try split) <;> (try split) <;> simp

@[simp] theorem get_dependents (o : Obj) (key : String) :
    (get o key).1.dependents = o.dependents := by
  unfold get
  dsimp only
  split <;> (try split) <;> (try split) <;> simp

@[simp] theorem get_revision (o : Obj) (key : String) :
    (get o key).1.revision = o.revision := by
  unfold get
  dsimp only
  split <;> (try split) <;> (try split) <;> simp

@[simp] theorem get_propertyRevision (o : Obj) (key : String) :
    (get o key).1.propertyRevision = o.propertyRevision := by
  unfold get
  dsimp only
  split <;> (try split) <;> (try split) <;> simp

@[simp] theorem get_changeLevel (o : Obj) (key : String) :
    (get o key).1.changeLevel = o.changeLevel := by
  unfold get
  dsimp only
  split <;> (try split) <;> (try split) <;> simp

@[simp] theorem get_changes (o : Obj) (key : String) :
    (get o key).1.changes = o.changes := by
  unfold get
  dsimp only
  split <;> (try split) <;> (try split) <;> simp

@[simp] theorem get_observers (o : Obj) (key : String) :
    (get o key).1.observers = o.observers := by
  unfold get
  dsimp only
  split <;> (try split) <;> (try split) <;> simp

@[simp] theorem get_localObs (o : Obj) (key : String) :
    (get o key).1.localObs = o.localObs := by
  unfold get
  dsimp only
  split <;> (try split) <;> (try split) <;> simp

@[simp] theorem get_observedKeys (o : Obj) (key : String) :
    (get o key).1.observedKeys = o.observedKeys := by
  unfold get
  dsimp only
  split <;> (try split) <;> (try split) <;> simp

@[simp] theorem get_hasPropertyObserverHook (o : Obj) (key : String) :
    (get o key).1.hasPropertyObserverHook = o.hasPropertyObserverHook := by
  unfold get
  dsimp only
  split <;> (try split) <;> (try split) <;> simp

@[simp] theorem get_suspended (o : Obj) (key : String) :
    (get o key).1.suspended = o.suspended := by
  unfold get
  dsimp only
  split <;> (try split) <;> (try split) <;> simp

@[simp] theorem get_chains (o : Obj) (key : String) :
    (get o key).1.chains = o.chains := by
  unfold get
  dsimp only
  split <;> (try split) <;> (try split) <;> simp

theorem set_revision_mono (o : Obj) (key : String) (v : JSVal) :
    o.revision ≤ (set o key v).1.revision := by
  unfold set
  dsimp only
  split <;> (try split) <;> (try split) <;> simp [Nat.le_succ]

theorem set_propertyRevision_mono (o : Obj) (key : String) (v : JSVal) :
    o.propertyRevision ≤ (set o key v).1.propertyRevision := by
  unfold set
  dsimp only
  split <;> (try split) <;> (try split) <;>
    first
      | (refine le_trans (le_of_eq ?_)
          (propertyDidChange_propertyRevision_mono _ _ _) <;> simp)
      | simp

@[simp] theorem endPropertyChanges_revision (o : Obj) :
    (endPropertyChanges o).1.revision = o.revision := by
  unfold endPropertyChanges
  dsimp only
  split <;> split <;> simp

theorem endPropertyChanges_propertyRevision_mono (o : Obj) :
    o.propertyRevision ≤ (endPropertyChanges o).1.propertyRevision := by
  unfold endPropertyChanges
  dsimp only
  split <;> split <;>
    first
      | exact le_trans (le_of_eq (by simp))
          (notifyPropertyObservers_propertyRevision_mono _ _)
      | simp

theorem addObserver_ok_shape (o : Obj) (key : String) (t m : JSVal)
    (ctx : Option Nat) (o' : Obj) (h : addObserver o key t m ctx = .ok o') :
    ∃ obs ok ch, o' = { o with observers := obs, observedKeys := ok, chains := ch } := by
  unfold addObserver at h
  rcases hr : resolveObserverArgs o t m with e | ⟨tv, mv⟩ <;> rw [hr] at h
  · cases h
  · dsimp only at h
    split at h <;> exact ⟨_, _, _, (Except.ok.injEq _ _ ▸ h).symm⟩

theorem removeObserver_ok_shape (o : Obj) (key : String) (t m : JSVal)
    (o' : Obj) (h : removeObserver o key t m = .ok o') :
    ∃ obs ok ch, o' = { o with observers := obs, observedKeys := ok, chains := ch } := by
  unfold removeObserver at h
  rcases hr : resolveObserverArgs o t m with e | ⟨tv, mv⟩ <;> rw [hr] at h
  · cases h
  · dsimp only at h
    split at h <;> exact ⟨_, _, _, (Except.ok.injEq _ _ ▸ h).symm⟩

theorem setIfChanged_revision_mono (o : Obj) (key : String) (v : JSVal) :
    o.revision ≤ (setIfChanged o key v).1.revision := by
  unfold setIfChanged
  dsimp only
  split
  · exact le_trans (le_of_eq (by simp)) (set_revision_mono _ _ _)
  · simp

theorem setIfChanged_propertyRevision_mono (o : Obj) (key : String)
    (v : JSVal) :
    o.propertyRevision ≤ (setIfChanged o key v).1.propertyRevision := by
  unfold setIfChanged
  dsimp only
  split
  · exact le_trans (le_of_eq (by simp)) (set_propertyRevision_mono _ _ _)
  · simp

theorem registerDependentKey_revision (o : Obj) (key : String)
    (deps : List String) : (registerDependentKey o key deps).revision = o.revision := by
  unfold registerDependentKey
  generalize deps.reverse = l
  induction l generalizing o with
  | nil => rfl
  | cons dep l ih =>
      simp only [List.foldl_cons]
      rw [ih]

theorem registerDependentKey_propertyRevision (o : Obj) (key : String)
    (deps : List String) : (registerDependentKey o key deps).propertyRevision = o.propertyRevision := by
  unfold registerDependentKey
  generalize deps.reverse = l
  induction l generalizing o with
  | nil => rfl
  | cons dep l ih =>
      simp only [List.foldl_cons]
      rw [ih]

theorem applyOp_revision_mono (o : Obj) (op : Op) :
    o.revision ≤ (applyOp o op).revision := by
  cases op with
  | opGet key => simp [applyOp]
  | opSet key v => exact set_revision_mono o key v
  | opSetIfChanged key v => exact setIfChanged_revision_mono o key v
  | opBegin => simp [applyOp, beginPropertyChanges]
  | opEnd => simp [applyOp]
  | opWillChange key => simp [applyOp]
  | opDidChange key keep => simp [applyOp, Nat.le_succ]
  | opNotifyChange key => simp [applyOp, notifyPropertyChange, Nat.le_succ]
  | opAllDidChange => simp [applyOp, allPropertiesDidChange]
  | opAddObserver key t m ctx =>
      rcases h : addObserver o key t m ctx with e | o'
      · simp [applyOp, h, Except.toOption]
      · obtain ⟨obs, ok, ch, ho⟩ := addObserver_ok_shape o key t m ctx o' h
        simp [applyOp, h, ho, Except.toOption]
  | opRemoveObserver key t m =>
      rcases h : removeObserver o key t m with e | o'
      · simp [applyOp, h, Except.toOption]
      · obtain ⟨obs, ok, ch, ho⟩ := removeObserver_ok_shape o key t m o' h
        simp [applyOp, h, ho, Except.toOption]
  | opRegisterDependentKey key deps =>
      simp [applyOp, registerDependentKey_revision]

theorem applyOp_propertyRevision_mono (o : Obj) (op : Op) :
    o.propertyRevision ≤ (applyOp o op).propertyRevision := by
  cases op with
  | opGet key => simp [applyOp]
  | opSet key v => exact set_propertyRevision_mono o key v
  | opSetIfChanged key v => exact setIfChanged_propertyRevision_mono o key v
  | opBegin => simp [applyOp, beginPropertyChanges]
  | opEnd => exact endPropertyChanges_propertyRevision_mono o
  | opWillChange key => simp [applyOp]
  | opDidChange key keep =>
      exact propertyDidChange_propertyRevision_mono o key keep
  | opNotifyChange key =>
      exact propertyDidChange_propertyRevision_mono o key false
  | opAllDidChange =>
      exact le_trans (le_of_eq (by simp))
        (notifyPropertyObservers_propertyRevision_mono { o with cache := none }
          (some "*"))
  | opAddObserver key t m ctx =>
      rcases h : addObserver o key t m ctx with e | o'
      · simp [applyOp, h, Except.toOption]
      · obtain ⟨obs, ok, ch, ho⟩ := addObserver_ok_shape o key t m ctx o' h
        simp [applyOp, h, ho, Except.toOption]
  | opRemoveObserver key t m =>
      rcases h : removeObserver o key t m with e | o'
      · simp [applyOp, h, Except.toOption]
      · obtain ⟨obs, ok, ch, ho⟩ := removeObserver_ok_shape o key t m o' h
        simp [applyOp, h, ho, Except.toOption]
  | opRegisterDependentKey key deps =>
      simp [applyOp, registerDependentKey_propertyRevision]

/-- C5.  The object's revision counters are non-decreasing across every
sequence of Observable operations, and each call of `propertyDidChange`
increments `_hub_kvo_revision` by exactly one (observable.js:416; the
`propertyRevision` counter used for observer deduplication only ever
advances as well, by one per notification pass, observable.js:908). -/
theorem revision_monotonic_and_propertyDidChange_increments :
    (∀ (o : Obj) (ops : List Op),
        o.revision ≤ (applyOps o ops).revision ∧
        o.propertyRevision ≤ (applyOps o ops).propertyRevision) ∧
    (∀ (o : Obj) (key : String) (keep : Bool),
        (propertyDidChange o key keep).1.revision = o.revision + 1) := by
  constructor
  · intro o ops
    induction ops generalizing o with
    | nil => exact ⟨le_refl _, le_refl _⟩
    | cons op ops ih =>
        exact ⟨le_trans (applyOp_revision_mono o op) (ih (applyOp o op)).1,
          le_trans (applyOp_propertyRevision_mono o op) (ih (applyOp o op)).2⟩
  · intro o key keep
    simp

@[simp] theorem cacheSet_cacheGet_self (o : Obj) (k : String) (v : JSVal) :
    (o.cacheSet k v).cacheGet k = v := by
  simp [Obj.cacheSet, Obj.cacheGet]

theorem cacheSet_cacheGet_ne (o : Obj) (k k' : String) (v : JSVal)
    (h : k' ≠ k) : (o.cacheSet k v).cacheGet k' = o.cacheGet k' := by
  simp [Obj.cacheSet, Obj.cacheGet, h]

@[simp] theorem ensureCache_cacheGet (o : Obj) (k : String) :
    o.ensureCache.cacheGet k = o.cacheGet k := by
  unfold Obj.ensureCache
  cases h : o.cache <;> simp [Obj.cacheGet, h]

theorem ensureCache_of_isSome (o : Obj) (h : o.cache.isSome = true) :
    o.ensureCache = o := by
  unfold Obj.ensureCache
  cases hc : o.cache with
  | none => rw [hc] at h; cases h
  | some cc => rfl

theorem get_plain (o : Obj) (k : String) (v : JSVal)
    (hp : o.props k = .val v) (hv : v ≠ .undef) : get o k = (o, [], v) := by
  unfold get
  dsimp only
  cases v <;> first | exact absurd rfl hv | simp [hp]

theorem set_plain_same (o : Obj) (k : String) (v : JSVal)
    (hp : o.props k = .val v) (hv : v ≠ .undef) :
    set o k v = (clearCachedDependentsStep o k, []) := by
  have hp2 : (clearCachedDependentsStep o k).props k = .val v := by simp [hp]
  unfold set
  dsimp only
  cases v <;> first | exact absurd rfl hv | simp [hp2]

/-- C6.  For a plain (non-descriptor, defined) property whose stored value
is already `x`: `setIfChanged(k, x)` is a complete no-op — it returns the
receiver unchanged, invokes no observers (empty event trace), and leaves
the revision alone — and a direct `set(k, x)` performs no write (the
stored properties are untouched) and fires no notification (empty trace,
revision, pending changes, `propertyRevision` and observer registrations
unchanged; only the dependent-key cache bookkeeping may be touched,
observable.js:274–290, which is invisible to `get` semantics of plain
properties and to observers). -/
theorem setIfChanged_same_value_noop (o : Obj) (key : String) (v : JSVal)
    (hp : o.props key = .val v) (hv : v ≠ .undef) :
    setIfChanged o key v = (o, []) ∧
    (set o key v).2 = [] ∧
    (set o key v).1.props = o.props ∧
    (set o key v).1.revision = o.revision ∧
    (set o key v).1.propertyRevision = o.propertyRevision ∧
    (set o key v).1.changes = o.changes ∧
    (set o key v).1.observers = o.observers := by
  have hset := set_plain_same o key v hp hv
  have hget := get_plain o key v hp hv
  refine ⟨?_, ?_, ?_, ?_, ?_, ?_, ?_⟩
  · unfold setIfChanged
    rw [hget]
    simp
  all_goals rw [hset] <;> simp

/-- C10.  A cacheable computed property whose cache slot is empty
(`undefined`): `get` invokes the descriptor function and returns its value;
when that value is `undefined` the slot stays empty, so the next `get`
invokes the function again — `undefined` is never memoized; when the value
is defined it is cached, and the next `get` returns it without invoking the
function (no event, object unchanged). -/
theorem get_undefined_not_memoized (o : Obj) (key : String) (d : Desc)
    (hp : o.props key = .descr d) (hc : d.isCacheable = true)
    (hm : o.cacheGet d.cacheKey = .undef) :
    ((get o key).2.1 = [.descrInvoke key .undef] ∧
      (get o key).2.2 = d.fn key .undef) ∧
    (d.fn key .undef = .undef →
      (get (get o key).1 key).2.1 = [.descrInvoke key .undef]) ∧
    (d.fn key .undef ≠ .undef →
      get (get o key).1 key = ((get o key).1, [], d.fn key .undef)) := by
  have hfirst : get o key =
      ((o.ensureCache).cacheSet d.cacheKey (d.fn key .undef),
        [.descrInvoke key .undef], d.fn key .undef) := by
    unfold get
    dsimp only
    simp [hp, hc, hm]
  have hp1 : ((o.ensureCache).cacheSet d.cacheKey (d.fn key .undef)).props key
      = .descr d := by simp [hp]
  refine ⟨⟨by rw [hfirst], by rw [hfirst]⟩, ?_, ?_⟩
  · intro hu
    rw [hfirst]
    dsimp only
    unfold get
    dsimp only
    simp [hp, hc, hu]
  · intro hu
    rw [hfirst]
    dsimp only
    have he : ((o.ensureCache).cacheSet d.cacheKey (d.fn key .undef)).ensureCache
        = (o.ensureCache).cacheSet d.cacheKey (d.fn key .undef) :=
      ensureCache_of_isSome _ (by simp)
    unfold get
    dsimp only
    simp [hp, hc, he, hu]

/-! ### Counting per-key member notifications -/

theorem countMemberFires_append (a b : List Event) (K : String)
    (t : Option JSVal) (m : JSVal) :
    countMemberFires (a ++ b) K t m =
      countMemberFires a K t m + countMemberFires b K t m := by
  simp [countMemberFires, List.filter_append]

theorem countMemberFires_nil (K : String) (t : Option JSVal) (m : JSVal) :
    countMemberFires [] K t m = 0 := rfl

theorem countMemberFires_localEvs (o : Obj) (key K : String)
    (t : Option JSVal) (m : JSVal) :
    countMemberFires (localEvs o key) K t m = 0 := by
  unfold countMemberFires localEvs
  rw [List.length_eq_zero, List.filter_eq_nil]
  intro e he
  obtain ⟨name, _, heq⟩ := List.mem_filterMap.1 he
  split at heq
  · cases heq
    simp
  · cases heq

theorem countMemberFires_star (key : String) (ms : List Member) (K : String)
    (t : Option JSVal) (m : JSVal) :
    countMemberFires (ms.map fun mm => Event.starFire key mm.target mm.method)
      K t m = 0 := by
  unfold countMemberFires
  rw [List.length_eq_zero, List.filter_eq_nil]
  intro e he
  obtain ⟨mm, _, heq⟩ := List.mem_map.1 he
  cases heq
  simp

theorem countMemberFires_hookEvs (o : Obj) (key : String) (rev : Nat)
    (K : String) (t : Option JSVal) (m : JSVal) :
    countMemberFires (hookEvs o key rev) K t m = 0 := by
  unfold countMemberFires hookEvs
  split <;> simp

theorem countMemberFires_memberMap (key : String) (rev : Nat)
    (ms : List Member) (K : String) (t : Option JSVal) (m : JSVal) :
    countMemberFires
      (ms.map fun mm => Event.memberFire key mm.target mm.method mm.context rev)
      K t m = if key = K then pairCount ms t m else 0 := by
  unfold countMemberFires pairCount
  by_cases hk : key = K
  · subst hk
    rw [if_pos rfl, List.filter_map, List.length_map]
    congr 1
    apply List.filter_congr
    intro mm _
    simp
  · rw [if_neg hk, List.length_eq_zero, List.filter_eq_nil]
    intro e he
    obtain ⟨mm, _, heq⟩ := List.mem_map.1 he
    cases heq
    simp [hk]

theorem pairCount_eq_zero_iff (ms : List Member) (t : Option JSVal)
    (m : JSVal) : pairCount ms t m = 0 ↔ (t, m) ∉ memberPairs ms := by
  unfold pairCount memberPairs
  rw [List.length_eq_zero, List.filter_eq_nil]
  constructor
  · intro h hmem
    obtain ⟨mm, hmm, heq⟩ := List.mem_map.1 hmem
    exact h mm hmm (by simp_all [Prod.ext_iff])
  · intro h mm hmm hp
    refine h (List.mem_map.2 ⟨mm, hmm, ?_⟩)
    simp at hp
    simp [hp]

theorem pairCount_le_one (ms : List Member) (t : Option JSVal) (m : JSVal)
    (hnd : pairsNodup ms) : pairCount ms t m ≤ 1 := by
  induction ms with
  | nil => simp [pairCount]
  | cons mm rest ih =>
      unfold pairsNodup memberPairs at hnd
      simp only [List.map_cons, List.nodup_cons] at hnd
      by_cases hp : mm.target = t ∧ mm.method = m
      · have hz : pairCount rest t m = 0 := by
          rw [pairCount_eq_zero_iff]
          intro hmem
          apply hnd.1
          rw [hp.1, hp.2]
          exact hmem
        unfold pairCount at hz ⊢
        rw [List.filter_cons, if_pos (by simpa using hp)]
        simp only [List.length_cons]
        omega
      · unfold pairCount at ih ⊢
        rw [List.filter_cons, if_neg (by simpa using hp)]
        exact ih hnd.2

theorem pairCount_eq_one (ms : List Member) (t : Option JSVal) (m : JSVal)
    (hnd : pairsNodup ms) (hmem : (t, m) ∈ memberPairs ms) :
    pairCount ms t m = 1 := by
  have h1 := pairCount_le_one ms t m hnd
  have h0 : pairCount ms t m ≠ 0 := fun h =>
    (pairCount_eq_zero_iff ms t m).1 h hmem
  omega

theorem notifyMembers_pairs (key : String) (rev : Nat) (ms : List Member) :
    memberPairs (notifyMembers key rev ms).1 = memberPairs ms := by
  unfold memberPairs
  rw [notifyMembers_fst, List.map_map]
  apply List.map_congr_left
  intro mm _
  by_cases h : mm.lastNotified = rev <;> simp [h]

theorem notifyMembers_slotOf (key : String) (rev : Nat) (ms : List Member)
    (t : Option JSVal) (m : JSVal) (hmem : (t, m) ∈ memberPairs ms) :
    slotOf (notifyMembers key rev ms).1 t m = some rev := by
  rw [notifyMembers_fst]
  induction ms with
  | nil => cases hmem
  | cons mm rest ih =>
      rw [List.map_cons]
      by_cases hp : mm.target = t ∧ mm.method = m
      · by_cases hr : mm.lastNotified = rev
        · unfold slotOf
          rw [if_pos hr, List.find?_cons_of_pos _ (by simpa using hp)]
          simp [hr]
        · unfold slotOf
          rw [if_neg hr, List.find?_cons_of_pos _ (by simpa using hp)]
          rfl
      · have hmem' : (t, m) ∈ memberPairs rest := by
          unfold memberPairs at hmem
          rcases List.mem_cons.1 hmem with h | h
          · exact absurd ⟨(congrArg Prod.fst h).symm, (congrArg Prod.snd h).symm⟩ hp
          · exact h
        unfold slotOf at ih ⊢
        have hpred : ¬((if mm.lastNotified = rev then mm
            else { mm with lastNotified := rev }).target = t ∧
            (if mm.lastNotified = rev then mm
            else { mm with lastNotified := rev }).method = m) := by
          by_cases hr : mm.lastNotified = rev
          · rw [if_pos hr]; exact hp
          · rw [if_neg hr]; exact hp
        rw [List.find?_cons_of_neg _ (by simpa using hpred)]
        exact ih hmem'

theorem slotOf_eq_none_iff (ms : List Member) (t : Option JSVal) (m : JSVal) :
    slotOf ms t m = none ↔ (t, m) ∉ memberPairs ms := by
  unfold slotOf memberPairs
  rw [Option.map_eq_none', List.find?_eq_none]
  constructor
  · intro h hmem
    obtain ⟨mm, hmm, heq⟩ := List.mem_map.1 hmem
    have hpair : mm.target = t ∧ mm.method = m :=
      ⟨congrArg Prod.fst heq, congrArg Prod.snd heq⟩
    exact h mm hmm (by simpa using hpair)
  · intro h mm hmm hpred
    apply h
    refine List.mem_map.2 ⟨mm, hmm, ?_⟩
    simp only [decide_eq_true_eq] at hpred
    simp [hpred.1, hpred.2]

theorem pairCount_filter_zero (ms : List Member) (t : Option JSVal)
    (m : JSVal) (h : pairCount ms t m = 0) (q : Member → Bool) :
    pairCount (ms.filter q) t m = 0 := by
  rw [pairCount_eq_zero_iff] at h ⊢
  intro hmem
  apply h
  unfold memberPairs at hmem ⊢
  obtain ⟨mm, hmm, heq⟩ := List.mem_map.1 hmem
  exact List.mem_map.2 ⟨mm, List.mem_of_mem_filter hmm, heq⟩

theorem pairCount_filter_slot (ms : List Member) (t : Option JSVal)
    (m : JSVal) (rev : Nat) (hnd : pairsNodup ms) :
    pairCount (ms.filter fun mm => mm.lastNotified != rev) t m =
      if slotOf ms t m = some rev then 0 else pairCount ms t m := by
  induction ms with
  | nil => simp [pairCount, slotOf]
  | cons mm rest ih =>
      unfold pairsNodup memberPairs at hnd
      simp only [List.map_cons, List.nodup_cons] at hnd
      by_cases hp : mm.target = t ∧ mm.method = m
      · have hslot : slotOf (mm :: rest) t m = some mm.lastNotified := by
          unfold slotOf
          rw [List.find?_cons_of_pos _ (by simpa using hp)]
          rfl
        have hz : pairCount rest t m = 0 := by
          rw [pairCount_eq_zero_iff]
          intro hmem
          apply hnd.1
          rw [hp.1, hp.2]
          exact hmem
        have hzf := pairCount_filter_zero rest t m hz
          (fun mm => mm.lastNotified != rev)
        have hstep : ∀ l : List Member,
            pairCount (mm :: l) t m = 1 + pairCount l t m := by
          intro l
          unfold pairCount
          rw [List.filter_cons, if_pos (by simpa using hp)]
          simp [Nat.add_comm]
        by_cases hr : mm.lastNotified = rev
        · rw [hslot, hr, if_pos rfl]
          rw [List.filter_cons, if_neg (by simp [hr])]
          exact hzf
        · rw [hslot, if_neg (by simpa using hr)]
          rw [List.filter_cons, if_pos (by simp [hr])]
          rw [hstep, hstep, hz, hzf]
      · have hslot : slotOf (mm :: rest) t m = slotOf rest t m := by
          unfold slotOf
          rw [List.find?_cons_of_neg _ (by simpa using hp)]
        have hstep : ∀ l : List Member,
            pairCount (mm :: l) t m = pairCount l t m := by
          intro l
          unfold pairCount
          rw [List.filter_cons, if_neg (by simpa using hp)]
        rw [hslot]
        by_cases hr : mm.lastNotified = rev
        · rw [List.filter_cons, if_neg (by simp [hr]), ih hnd.2]
          split
          · rfl
          · exact (hstep rest).symm
        · rw [List.filter_cons, if_pos (by simp [hr]), hstep, ih hnd.2]
          split
          · rfl
          · exact (hstep rest).symm

theorem processKey_count (o : Obj) (key : String) (rev : Nat) (K : String)
    (t : Option JSVal) (m : JSVal) :
    countMemberFires (processKey o key rev).2 K t m =
      if key = K then
        pairCount ((o.observers K).filter fun mm => mm.lastNotified != rev) t m
      else 0 := by
  rw [processKey_snd, countMemberFires_append, countMemberFires_append,
    countMemberFires_append, notifyMembers_snd, countMemberFires_memberMap,
    countMemberFires_localEvs, countMemberFires_hookEvs]
  have hstar : countMemberFires
      (if key = "*" then []
        else (o.observers "*").map fun mm => Event.starFire key mm.target mm.method)
      K t m = 0 := by
    split
    · rfl
    · exact countMemberFires_star key _ K t m
  rw [hstar]
  by_cases hk : key = K
  · subst hk
    simp
  · simp [hk]

theorem processKey_count_self (o : Obj) (K : String) (rev : Nat)
    (t : Option JSVal) (m : JSVal) (hnd : pairsNodup (o.observers K)) :
    countMemberFires (processKey o K rev).2 K t m =
      if slotOf (o.observers K) t m = some rev then 0
      else pairCount (o.observers K) t m := by
  rw [processKey_count, if_pos rfl]
  exact pairCount_filter_slot _ _ _ _ hnd

theorem processKey_count_other (o : Obj) (key : String) (rev : Nat)
    (K : String) (t : Option JSVal) (m : JSVal) (h : key ≠ K) :
    countMemberFires (processKey o key rev).2 K t m = 0 := by
  rw [processKey_count, if_neg h]

/-- The guard `member[3] === rev` makes the fan-out loop fire each
`(target, method)` member of a per-key set at most once per revision value:
0 times when the member's slot already equals `rev` or the pair is not
registered, exactly once when the pair is registered with a stale slot and
its key is among the processed keys. -/
theorem fanout_count (rev : Nat) (l : List String) (o : Obj) (K : String)
    (t : Option JSVal) (m : JSVal) (hnd : pairsNodup (o.observers K)) :
    (countMemberFires (fanoutAux rev o l).2 K t m ≤ 1) ∧
    (slotOf (o.observers K) t m = some rev →
      countMemberFires (fanoutAux rev o l).2 K t m = 0) ∧
    ((t, m) ∉ memberPairs (o.observers K) →
      countMemberFires (fanoutAux rev o l).2 K t m = 0) ∧
    ((t, m) ∈ memberPairs (o.observers K) →
      slotOf (o.observers K) t m ≠ some rev → K ∈ l →
      countMemberFires (fanoutAux rev o l).2 K t m = 1) := by
  induction l generalizing o with
  | nil =>
      refine ⟨by simp [fanoutAux, countMemberFires], fun _ => rfl, fun _ => rfl,
        fun _ _ hK => absurd hK (List.not_mem_nil K)⟩
  | cons key rest ih =>
      have hsplit : (fanoutAux rev o (key :: rest)).2 =
          (processKey o key rev).2 ++
            (fanoutAux rev (processKey o key rev).1 rest).2 := rfl
      rw [hsplit, countMemberFires_append]
      by_cases hk : key = K
      · subst hk
        have hobs' : (processKey o key rev).1.observers key =
            (notifyMembers key rev (o.observers key)).1 :=
          processKey_observers_self o key rev
        have hnd' : pairsNodup ((processKey o key rev).1.observers key) := by
          rw [hobs']
          unfold pairsNodup
          rw [notifyMembers_pairs]
          exact hnd
        obtain ⟨ih1, ih2, ih3, ih4⟩ := ih (processKey o key rev).1 hnd'
        by_cases hmem : (t, m) ∈ memberPairs (o.observers key)
        · have hslot' : slotOf ((processKey o key rev).1.observers key) t m
              = some rev := by
            rw [hobs']
            exact notifyMembers_slotOf key rev _ t m hmem
          have hrest := ih2 hslot'
          by_cases hs : slotOf (o.observers key) t m = some rev
          · have hhead : countMemberFires (processKey o key rev).2 key t m = 0 := by
              rw [processKey_count_self o key rev t m hnd, if_pos hs]
            refine ⟨by omega, fun _ => by omega, fun hno => absurd hmem hno,
              fun _ hs' _ => absurd hs hs'⟩
          · have hone : pairCount (o.observers key) t m = 1 :=
              pairCount_eq_one _ _ _ hnd hmem
            have hhead : countMemberFires (processKey o key rev).2 key t m = 1 := by
              rw [processKey_count_self o key rev t m hnd, if_neg hs, hone]
            refine ⟨by omega, fun hs' => absurd hs' hs, fun hno => absurd hmem hno,
              fun _ _ _ => by omega⟩
        · have hz : pairCount (o.observers key) t m = 0 :=
            (pairCount_eq_zero_iff _ _ _).2 hmem
          have hhead : countMemberFires (processKey o key rev).2 key t m = 0 := by
            rw [processKey_count_self o key rev t m hnd]
            split
            · rfl
            · exact hz
          have hmem' : (t, m) ∉ memberPairs ((processKey o key rev).1.observers key) := by
            rw [hobs']
            unfold pairsNodup at hnd'
            rw [show memberPairs (notifyMembers key rev (o.observers key)).1
              = memberPairs (o.observers key) from notifyMembers_pairs key rev _]
            exact hmem
          have hrest := ih3 hmem'
          exact ⟨by omega, fun _ => by omega, fun _ => by omega,
            fun hmem2 _ _ => absurd hmem2 hmem⟩
      · have hKk : K ≠ key := fun he => hk he.symm
        have hobs' : (processKey o key rev).1.observers K = o.observers K :=
          processKey_observers_ne o key rev K hKk
        have hnd' : pairsNodup ((processKey o key rev).1.observers K) := by
          rw [hobs']
          exact hnd
        obtain ⟨ih1, ih2, ih3, ih4⟩ := ih (processKey o key rev).1 hnd'
        rw [hobs'] at ih2 ih3 ih4
        have hhead : countMemberFires (processKey o key rev).2 K t m = 0 :=
          processKey_count_other o key rev K t m hk
        refine ⟨by omega, fun hs => by have := ih2 hs; omega,
          fun hno => by have := ih3 hno; omega, fun hmem hs hin => ?_⟩
        rcases List.mem_cons.1 hin with he | hin'
        · exact absurd he.symm hk
        · have := ih4 hmem hs hin'
          omega

theorem notify_count (o : Obj) (okey : Option String) (K : String)
    (t : Option JSVal) (m : JSVal) (hnd : pairsNodup (o.observers K)) :
    countMemberFires (notifyPropertyObservers o okey).2 K t m ≤ 1 ∧
    (slotOf (o.observers K) t m = some (o.propertyRevision + 1) →
      countMemberFires (notifyPropertyObservers o okey).2 K t m = 0) := by
  unfold notifyPropertyObservers
  dsimp only
  split
  · have hno : (notifySetup { o with changeLevel := o.changeLevel + 1 }
        okey).1.observers K = o.observers K := by simp
    have hpr : (notifySetup { o with changeLevel := o.changeLevel + 1 }
        okey).1.propertyRevision = o.propertyRevision + 1 := by simp
    obtain ⟨f1, f2, f3, f4⟩ := fanout_count
      (notifySetup { o with changeLevel := o.changeLevel + 1 } okey).1.propertyRevision
      (notifySetup { o with changeLevel := o.changeLevel + 1 } okey).2.reverse
      (notifySetup { o with changeLevel := o.changeLevel + 1 } okey).1 K t m
      (by rw [hno]; exact hnd)
    refine ⟨f1, fun hs => f2 ?_⟩
    rw [hno, hpr]
    exact hs
  · exact ⟨by simp [countMemberFires], fun _ => rfl⟩

/-- C3.  For an observer pair `(T, M)` registered in the per-key
ObserverSet of key `K`, one execution of `_hub_notifyPropertyObservers`
fires `M` at most once for `K` at the pass revision, and a member whose
`lastNotifiedRevision` slot already equals the revision the pass will use
(`propertyRevision + 1`, observable.js:908) is skipped outright
(observable.js:961). -/
theorem member_at_most_once_per_revision (o : Obj) (okey : Option String)
    (K : String) (t : Option JSVal) (m : JSVal)
    (hnd : pairsNodup (o.observers K))
    (hmem : (t, m) ∈ memberPairs (o.observers K)) :
    countMemberFires (notifyPropertyObservers o okey).2 K t m ≤ 1 ∧
    (slotOf (o.observers K) t m = some (o.propertyRevision + 1) →
      countMemberFires (notifyPropertyObservers o okey).2 K t m = 0) :=
  notify_count o okey K t m hnd

theorem member_at_most_once_per_revision_witness :
    (pairsNodup (observedObj.observers "value") ∧
      (some (JSVal.obj 3), JSVal.fnv 7) ∈ memberPairs (observedObj.observers "value")) ∧
    (countMemberFires
        (notifyPropertyObservers observedObj (some "value")).2 "value"
        (some (.obj 3)) (.fnv 7) ≤ 1 ∧
      (slotOf (observedObj.observers "value") (some (.obj 3)) (.fnv 7)
          = some (observedObj.propertyRevision + 1) →
        countMemberFires
          (notifyPropertyObservers observedObj (some "value")).2 "value"
          (some (.obj 3)) (.fnv 7) = 0)) :=
  ⟨⟨by unfold pairsNodup memberPairs; decide, by decide⟩,
    member_at_most_once_per_revision observedObj (some "value") "value"
      (some (.obj 3)) (.fnv 7) (by unfold pairsNodup memberPairs; decide)
      (by decide)⟩

theorem propertyDidChange_deferred (o : Obj) (key : String) (keep : Bool)
    (h : 0 < o.changeLevel ∨ o.suspended = true) :
    propertyDidChange o key keep =
      ({ pdcClearCaches { o with revision := o.revision + 1 } key keep with
          changes := some (coreAdd (o.changes.getD []) key) }, []) := by
  unfold propertyDidChange
  dsimp only
  rw [if_pos (by simpa using h)]
  simp

theorem set_observers_deferred (o : Obj) (k : String) (v : JSVal)
    (hlev : 0 < o.changeLevel) :
    (set o k v).1.observers = o.observers := by
  unfold set
  dsimp only
  split <;> (try split) <;> (try split) <;>
    first
      | (rw [propertyDidChange_deferred _ _ _ (Or.inl (by simpa using hlev))]
         simp)
      | simp

theorem set_propertyRevision_deferred (o : Obj) (k : String) (v : JSVal)
    (hlev : 0 < o.changeLevel) :
    (set o k v).1.propertyRevision = o.propertyRevision := by
  unfold set
  dsimp only
  split <;> (try split) <;> (try split) <;>
    first
      | (rw [propertyDidChange_deferred _ _ _ (Or.inl (by simpa using hlev))]
         simp)
      | simp

theorem hasMemberFire_append (a b : List Event) :
    hasMemberFire (a ++ b) = (hasMemberFire a || hasMemberFire b) := by
  simp [hasMemberFire, List.any_append]

theorem set_deferred (o : Obj) (k : String) (v : JSVal)
    (hlev : 0 < o.changeLevel) :
    hasMemberFire (set o k v).2 = false ∧
    ((set o k v).1.changes = o.changes ∨
      (set o k v).1.changes = some (coreAdd (o.changes.getD []) k)) := by
  unfold set
  dsimp only
  split <;> (try split) <;> (try split) <;>
    first
      | (rw [propertyDidChange_deferred _ _ _ (Or.inl (by simpa using hlev))]
         exact ⟨by simp [hasMemberFire], Or.inr (by simp)⟩)
      | exact ⟨rfl, Or.inl (by simp)⟩

theorem set_changes_mono (o : Obj) (k : String) (v : JSVal) (x : String)
    (hlev : 0 < o.changeLevel) (hx : x ∈ o.changes.getD []) :
    x ∈ (set o k v).1.changes.getD [] := by
  rcases (set_deferred o k v hlev).2 with h | h <;> rw [h]
  · exact hx
  · exact coreAdd_mem_of_mem k hx

theorem set_changes_nodup (o : Obj) (k : String) (v : JSVal)
    (hlev : 0 < o.changeLevel) (hn : (o.changes.getD []).Nodup) :
    ((set o k v).1.changes.getD []).Nodup := by
  rcases (set_deferred o k v hlev).2 with h | h <;> rw [h]
  · exact hn
  · exact coreAdd_nodup hn k

theorem applySetList_facts (ps : List (String × JSVal)) (o : Obj)
    (hlev : 0 < o.changeLevel) :
    hasMemberFire (applySetList o ps).2 = false ∧
    (applySetList o ps).1.observers = o.observers ∧
    (applySetList o ps).1.changeLevel = o.changeLevel ∧
    (applySetList o ps).1.suspended = o.suspended ∧
    (applySetList o ps).1.propertyRevision = o.propertyRevision ∧
    ((o.changes.getD []).Nodup → ((applySetList o ps).1.changes.getD []).Nodup) ∧
    (∀ x, x ∈ o.changes.getD [] → x ∈ (applySetList o ps).1.changes.getD []) := by
  induction ps generalizing o with
  | nil =>
      exact ⟨rfl, rfl, rfl, rfl, rfl, fun h => h, fun _ h => h⟩
  | cons p ps ih =>
      have hlev' : 0 < (set o p.1 p.2).1.changeLevel := by
        rw [set_changeLevel]
        exact hlev
      obtain ⟨f1, f2, f3, f4, f5, f6, f7⟩ := ih (set o p.1 p.2).1 hlev'
      have hsplit : applySetList o (p :: ps) =
          ((applySetList (set o p.1 p.2).1 ps).1,
            (set o p.1 p.2).2 ++ (applySetList (set o p.1 p.2).1 ps).2) := rfl
      rw [hsplit]
      refine ⟨?_, ?_, ?_, ?_, ?_, ?_, ?_⟩
      · rw [hasMemberFire_append, (set_deferred o p.1 p.2 hlev).1, f1]
        rfl
      · rw [f2, set_observers_deferred o p.1 p.2 hlev]
      · rw [f3, set_changeLevel]
      · rw [f4, set_suspended]
      · rw [f5, set_propertyRevision_deferred o p.1 p.2 hlev]
      · intro hn
        exact f6 (set_changes_nodup o p.1 p.2 hlev hn)
      · intro x hx
        exact f7 x (set_changes_mono o p.1 p.2 x hlev hx)

theorem set_plain_diff (o : Obj) (k : String) (v0 v : JSVal)
    (hp : o.props k = .val v0) (hv0 : v0 ≠ .undef) (hne : v0 ≠ v)
    (hlev : 0 < o.changeLevel) :
    (set o k v).1.changes = some (coreAdd (o.changes.getD []) k) := by
  have hp2 : (clearCachedDependentsStep o k).props k = .val v0 := by simp [hp]
  have hbody : set o k v =
      propertyDidChange
        { clearCachedDependentsStep o k with
          props := fun kk =>
            if kk = k then .val v
            else (clearCachedDependentsStep o k).props kk } k false := by
    unfold set
    dsimp only
    cases v0 <;> first | exact absurd rfl hv0 | simp [hp2, hne]
  rw [hbody,
    propertyDidChange_deferred _ _ _ (Or.inl (by simpa using hlev))]
  simp

theorem setsK_key_in_changes (vs : List JSVal) (o : Obj) (K : String)
    (v0 : JSVal) (hlev : 0 < o.changeLevel) (hp : o.props K = .val v0)
    (hv0 : v0 ≠ .undef) (hdiff : ∃ v ∈ vs, v ≠ v0) :
    K ∈ ((applySetList o (vs.map fun v => (K, v))).1.changes.getD []) := by
  induction vs generalizing o with
  | nil => obtain ⟨v, hv, _⟩ := hdiff; cases hv
  | cons v vs ih =>
      have hsplit : (applySetList o ((v :: vs).map fun v => (K, v))).1 =
          (applySetList (set o K v).1 (vs.map fun v => (K, v))).1 := rfl
      rw [hsplit]
      by_cases hveq : v = v0
      · subst hveq
        have hset := set_plain_same o K v hp (by exact hv0)
        have hdiff' : ∃ w ∈ vs, w ≠ v := by
          obtain ⟨w, hw, hwne⟩ := hdiff
          rcases List.mem_cons.1 hw with he | hin
          · exact absurd he hwne
          · exact ⟨w, hin, hwne⟩
        rw [hset]
        exact ih (clearCachedDependentsStep o K)
          (by simpa using hlev) (by simp [hp]) hdiff'
      · have hK : K ∈ (set o K v).1.changes.getD [] := by
          rw [set_plain_diff o K v0 v hp hv0 (fun he => hveq he.symm) hlev]
          exact mem_coreAdd_self _ K
        obtain ⟨f1, f2, f3, f4, f5, f6, f7⟩ :=
          applySetList_facts (vs.map fun v => (K, v)) (set o K v).1
            (by rw [set_changeLevel]; exact hlev)
        exact f7 K hK

theorem notify_count_exact (o : Obj) (K : String) (t : Option JSVal)
    (m : JSVal) (hnd : pairsNodup (o.observers K))
    (hmem : (t, m) ∈ memberPairs (o.observers K))
    (hslot : slotOf (o.observers K) t m ≠ some (o.propertyRevision + 1))
    (hK : K ∈ o.changes.getD []) :
    countMemberFires (notifyPropertyObservers o none).2 K t m = 1 := by
  unfold notifyPropertyObservers
  dsimp only
  have hne : changesNonempty { o with changeLevel := o.changeLevel + 1 } = true := by
    unfold changesNonempty
    rcases hcs : o.changes with _ | cs
    · rw [hcs] at hK
      exact absurd hK (List.not_mem_nil K)
    · rw [hcs] at hK
      simp only [Option.getD_some] at hK
      simp [List.length_pos, List.ne_nil_of_mem hK]
  rw [if_pos (Or.inl hne)]
  have hno : (notifySetup { o with changeLevel := o.changeLevel + 1 }
      none).1.observers K = o.observers K := by simp
  have hpr : (notifySetup { o with changeLevel := o.changeLevel + 1 }
      none).1.propertyRevision = o.propertyRevision + 1 := by simp
  obtain ⟨f1, f2, f3, f4⟩ := fanout_count
    (notifySetup { o with changeLevel := o.changeLevel + 1 } none).1.propertyRevision
    (notifySetup { o with changeLevel := o.changeLevel + 1 } none).2.reverse
    (notifySetup { o with changeLevel := o.changeLevel + 1 } none).1 K t m
    (by rw [hno]; exact hnd)
  refine f4 (by rw [hno]; exact hmem) (by rw [hno, hpr]; exact hslot) ?_
  exact List.mem_reverse.2
    (notifySetup_mem { o with changeLevel := o.changeLevel + 1 } none K hK)

theorem slotOf_mem (ms : List Member) (t : Option JSVal) (m : JSVal)
    (s : Nat) (h : slotOf ms t m = some s) :
    ∃ mem ∈ ms, mem.lastNotified = s := by
  unfold slotOf at h
  rw [Option.map_eq_some'] at h
  obtain ⟨mem, hfind, hs⟩ := h
  exact ⟨mem, List.mem_of_find?_eq_some hfind, hs⟩

theorem changesNonempty_of_mem (o : Obj) (K : String)
    (hK : K ∈ o.changes.getD []) : changesNonempty o = true := by
  unfold changesNonempty
  rcases hcs : o.changes with _ | cs
  · rw [hcs] at hK
    exact absurd hK (List.not_mem_nil K)
  · rw [hcs] at hK
    simp only [Option.getD_some] at hK
    simp [List.length_pos, List.ne_nil_of_mem hK]

theorem end_count_le (o2 : Obj) (K : String) (t : Option JSVal) (m : JSVal)
    (hnd2 : pairsNodup (o2.observers K)) :
    countMemberFires (endPropertyChanges o2).2 K t m ≤ 1 := by
  unfold endPropertyChanges
  dsimp only
  split
  · split
    · exact (notify_count _ none K t m (by exact hnd2)).1
    · simp [countMemberFires]
  · split
    · exact (notify_count _ none K t m (by exact hnd2)).1
    · simp [countMemberFires]

theorem end_count_exact (o2 : Obj) (K : String) (t : Option JSVal)
    (m : JSVal) (hcl : o2.changeLevel = 1) (hsusp : o2.suspended = false)
    (hnd2 : pairsNodup (o2.observers K))
    (hmem : (t, m) ∈ memberPairs (o2.observers K))
    (hslot : slotOf (o2.observers K) t m ≠ some (o2.propertyRevision + 1))
    (hK : K ∈ o2.changes.getD []) :
    countMemberFires (endPropertyChanges o2).2 K t m = 1 := by
  unfold endPropertyChanges
  dsimp only
  have hlvl : (if o2.changeLevel = 0 then 1 else o2.changeLevel) - 1 = 0 := by
    rw [hcl]
    simp
  rw [hlvl]
  rw [if_pos ⟨rfl, by exact changesNonempty_of_mem _ K hK, by simp [hsusp]⟩]
  exact notify_count_exact { o2 with changeLevel := 0 } K t m
    (by exact hnd2) (by exact hmem) (by exact hslot) (by exact hK)

/-- C2 counterexample: the claim asserts that N `set` calls of the same
key between `beginPropertyChanges` and `endPropertyChanges` invoke an
observer of that key exactly once.  On `observedObj` — whose `"value"`
property already holds `1` and has one registered observer — the bracket
`begin; set("value", 1); end` invokes the observer zero times, because a
`set` writing the already-stored value performs no notification at all
(observable.js:313).  So "exactly once" fails as stated. -/
theorem coalescence_exactly_once_counterexample :
    countMemberFires
      (endPropertyChanges
        (applySetList (beginPropertyChanges observedObj)
          [("value", .num 1)]).1).2
      "value" (some (.obj 3)) (.fnv 7) = 0 := by decide

/-- C2 (amended).  For any `set` calls bracketed by one
`beginPropertyChanges` / matching `endPropertyChanges` on an object with no
grouping already active and observing not suspended: no per-key observer
fires during the sets; at the flush each registered observer pair fires at
most once per distinct key; and N sets of the same key `K`, **at least one
of which writes a value different from the stored one**, fire an observer
of `K` exactly once, during `endPropertyChanges`.  (The emphasised proviso
is what the counterexample forces: sets that only re-write the stored value
notify nobody.) -/
theorem coalesced_bracket_notification (o : Obj) (ps : List (String × JSVal))
    (hlev : o.changeLevel = 0) (hch : o.changes = none)
    (hsusp : o.suspended = false)
    (hnd : ∀ k, pairsNodup (o.observers k))
    (hslots : ∀ k mem, mem ∈ o.observers k →
      mem.lastNotified ≤ o.propertyRevision) :
    hasMemberFire (applySetList (beginPropertyChanges o) ps).2 = false ∧
    (∀ K t m, countMemberFires
        (endPropertyChanges (applySetList (beginPropertyChanges o) ps).1).2
        K t m ≤ 1) ∧
    (∀ K v0 t m (vs : List JSVal), ps = vs.map (fun v => (K, v)) →
      o.props K = .val v0 → v0 ≠ .undef → (∃ v ∈ vs, v ≠ v0) →
      (t, m) ∈ memberPairs (o.observers K) →
      countMemberFires
        (endPropertyChanges (applySetList (beginPropertyChanges o) ps).1).2
        K t m = 1) := by
  have hlev1 : 0 < (beginPropertyChanges o).changeLevel := by
    simp [beginPropertyChanges]
  obtain ⟨f1, f2, f3, f4, f5, f6, f7⟩ :=
    applySetList_facts ps (beginPropertyChanges o) hlev1
  have hobs2 : (applySetList (beginPropertyChanges o) ps).1.observers
      = o.observers := f2
  refine ⟨f1, ?_, ?_⟩
  · intro K t m
    exact end_count_le _ K t m (by rw [hobs2]; exact hnd K)
  · intro K v0 t m vs hps hp hv0 hdiff hmem
    subst hps
    have hcl2 : (applySetList (beginPropertyChanges o)
        (vs.map fun v => (K, v))).1.changeLevel = 1 := by
      rw [f3]
      simp [beginPropertyChanges, hlev]
    have hsusp2 : (applySetList (beginPropertyChanges o)
        (vs.map fun v => (K, v))).1.suspended = false := by
      rw [f4]
      exact hsusp
    have hpr2 : (applySetList (beginPropertyChanges o)
        (vs.map fun v => (K, v))).1.propertyRevision = o.propertyRevision :=
      f5
    have hslot2 : slotOf ((applySetList (beginPropertyChanges o)
          (vs.map fun v => (K, v))).1.observers K) t m ≠
        some ((applySetList (beginPropertyChanges o)
          (vs.map fun v => (K, v))).1.propertyRevision + 1) := by
      rw [hobs2, hpr2]
      rcases hs : slotOf (o.observers K) t m with _ | s
      · exact fun h => Option.noConfusion h
      · obtain ⟨mem, hmm, hlast⟩ := slotOf_mem _ _ _ _ hs
        have hle := hslots K mem hmm
        intro hcontra
        have hse : s = o.propertyRevision + 1 := Option.some.inj hcontra
        omega
    have hK2 : K ∈ ((applySetList (beginPropertyChanges o)
        (vs.map fun v => (K, v))).1.changes.getD []) :=
      setsK_key_in_changes vs (beginPropertyChanges o) K v0 hlev1
        (by exact hp) hv0 hdiff
    exact end_count_exact _ K t m hcl2 hsusp2
      (by rw [hobs2]; exact hnd K) (by rw [hobs2]; exact hmem) hslot2 hK2


/-- Witness for the amended C2 theorem: on `observedObj` (one registered
observer of `"value"`, stored value `1`), the bracket
`begin; set("value", 2); end` fires the observer exactly once. -/
theorem coalesced_bracket_notification_witness :
    observedObj.changeLevel = 0 ∧ observedObj.changes = none ∧
    observedObj.suspended = false ∧
    countMemberFires
      (endPropertyChanges
        (applySetList (beginPropertyChanges observedObj)
          [("value", .num 2)]).1).2
      "value" (some (.obj 3)) (.fnv 7) = 1 := by
  refine ⟨rfl, rfl, rfl, ?_⟩
  have hnd : ∀ k, pairsNodup (observedObj.observers k) := by
    intro k
    by_cases hk : k = "value" <;>
      simp [pairsNodup, memberPairs, observedObj, baseObj, hk]
  have hslots : ∀ k mem, mem ∈ observedObj.observers k →
      mem.lastNotified ≤ observedObj.propertyRevision := by
    intro k mem hmem
    by_cases hk : k = "value"
    · simp [observedObj, baseObj, hk] at hmem
      subst hmem
      decide
    · simp [observedObj, baseObj, hk] at hmem
  exact (coalesced_bracket_notification observedObj [("value", JSVal.num 2)]
      rfl rfl rfl hnd hslots).2.2 "value" (.num 1) (some (.obj 3)) (.fnv 7)
      [.num 2] rfl rfl (by decide) (by decide) (by decide)


/-- Witness for the C6 theorem on `plainObj`: `"x"` holds `1`, and
`setIfChanged "x" 1` returns the object unchanged with an empty trace. -/
theorem setIfChanged_same_value_noop_witness :
    plainObj.props "x" = .val (.num 1) ∧ JSVal.num 1 ≠ .undef ∧
    setIfChanged plainObj "x" (.num 1) = (plainObj, []) :=
  ⟨rfl, by decide,
    (setIfChanged_same_value_noop plainObj "x" (.num 1) rfl (by decide)).1⟩

/-- Witness for the C10 theorem on `undefDescObj`: the descriptor returns
`undefined`, and the second `get` invokes it again. -/
theorem get_undefined_not_memoized_witness :
    undefDescObj.props "f" = .descr undefDesc ∧
    undefDesc.isCacheable = true ∧
    undefDescObj.cacheGet undefDesc.cacheKey = .undef ∧
    (get (get undefDescObj "f").1 "f").2.1 = [.descrInvoke "f" .undef] :=
  ⟨rfl, rfl, rfl,
    (get_undefined_not_memoized undefDescObj "f" undefDesc rfl rfl rfl).2.1 rfl⟩


/-- C9 counterexample: the claim says a method-name string that does not
name a *function* on the target throws.  The source only checks falsiness
(`if (!method) throw ...`, observable.js:665, 717): on `plainObj`, whose
`"x"` property holds the number `1`, `addObserver("k", this, "x")` resolves
the method to the truthy non-function `1` and registers it without
throwing. -/
theorem addObserver_nonfunction_method_counterexample :
    (addObserver plainObj "k" (.obj 0) (.str "x") none).isOk = true ∧
    ((addObserver plainObj "k" (.obj 0) (.str "x") none).toOption.getD
        plainObj).observers "k" = [⟨none, .num 1, none, 0⟩] := by
  have hK : ("k" : String).contains '.' = false := by
    rw [Bool.eq_false_iff]
    intro hc
    have h2 := (String.contains_iff _ _).1 hc
    simp [String.data] at h2
  have hres : resolveObserverArgs plainObj (.obj 0) (.str "x") =
      .ok (.obj 0, .num 1) := rfl
  have hadd : addObserver plainObj "k" (.obj 0) (.str "x") none =
      .ok { plainObj with
        observers := fun k2 => if k2 = "k"
          then observerSetAdd (plainObj.observers "k") none (.num 1) none
          else plainObj.observers k2
        observedKeys := coreAdd plainObj.observedKeys "k" } := by
    unfold addObserver
    rw [hres]
    dsimp only
    simp [hK]
  constructor
  · rw [hadd]
    rfl
  · rw [hadd]
    decide

/-- C9 (amended).  `addObserver` (and likewise `removeObserver`) throws
synchronously exactly when the *resolved* method — after the
target/method argument normalization of observable.js:661–666 — is falsy:
absent, or a method-name string naming no property (or a falsy one) on the
target.  A truthy non-function resolved value does **not** throw and is
registered as the member's method.  When the call does throw, the object's
observer registrations are left unchanged. -/
theorem observer_registration_throws_iff_falsy (o : Obj) (key : String)
    (t m : JSVal) (c : Option Nat) :
    ((∃ e, addObserver o key t m c = .error e) ↔
      (∃ e, resolveObserverArgs o t m = .error e)) ∧
    ((∃ e, removeObserver o key t m = .error e) ↔
      (∃ e, resolveObserverArgs o t m = .error e)) ∧
    (∀ tv mv, resolveObserverArgs o t m = .ok (tv, mv) → mv.truthy = true) ∧
    ((∃ e, resolveObserverArgs o t m = .error e) →
      applyOp o (.opAddObserver key t m c) = o ∧
      applyOp o (.opRemoveObserver key t m) = o) := by
  refine ⟨?_, ?_, ?_, ?_⟩
  · constructor
    · rintro ⟨e, he⟩
      unfold addObserver at he
      rcases hr : resolveObserverArgs o t m with e2 | ⟨tv, mv⟩ <;> rw [hr] at he
      · exact ⟨e2, rfl⟩
      · dsimp only at he
        split at he <;> exact Except.noConfusion he
    · rintro ⟨e, he⟩
      exact ⟨e, by unfold addObserver; rw [he]⟩
  · constructor
    · rintro ⟨e, he⟩
      unfold removeObserver at he
      rcases hr : resolveObserverArgs o t m with e2 | ⟨tv, mv⟩ <;> rw [hr] at he
      · exact ⟨e2, rfl⟩
      · dsimp only at he
        split at he <;> exact Except.noConfusion he
    · rintro ⟨e, he⟩
      exact ⟨e, by unfold removeObserver; rw [he]⟩
  · intro tv mv h
    unfold resolveObserverArgs at h
    dsimp only at h
    have key : ∀ (t2 m2 : JSVal),
        (if m2.truthy then (Except.ok (t2, m2) : Except String (JSVal × JSVal))
          else .error "You must pass a method to addObserver()") =
          .ok (tv, mv) → mv.truthy = true := by
      intro t2 m2 hif
      split at hif
      · next hc =>
          cases hif
          exact hc
      · exact Except.noConfusion hif
    exact key _ _ h
  · rintro ⟨e, he⟩
    have hadd : addObserver o key t m c = .error e := by
      unfold addObserver
      rw [he]
    have hrem : removeObserver o key t m = .error e := by
      unfold removeObserver
      rw [he]
    constructor
    · show (addObserver o key t m c).toOption.getD o = o
      rw [hadd]
      rfl
    · show (removeObserver o key t m).toOption.getD o = o
      rw [hrem]
      rfl

/-- Witness for the amended C9 theorem: with both arguments absent
(`undefined`), the normalized method is falsy, and the thrown
`addObserver` leaves `plainObj` unchanged. -/
theorem observer_registration_throws_iff_falsy_witness :
    applyOp plainObj (.opAddObserver "k" .undef .undef none) = plainObj ∧
    applyOp plainObj (.opRemoveObserver "k" .undef .undef) = plainObj :=
  (observer_registration_throws_iff_falsy plainObj "k" .undef .undef none).2.2.2
    ⟨"You must pass a method to addObserver()", rfl⟩


theorem depLookup_nil (k : String) : depLookup [] k = [] := rfl

theorem pdcOwnClear_keep (o : Obj) (key : String) :
    pdcOwnClear o key true = o := rfl

theorem cachedDependentsFor_nodeps (o : Obj) (key : String)
    (hdeps : o.dependents = [])
    (hfind : o.cachedep.find? (fun p => p.1 = key) = none ∨
      o.cachedep.find? (fun p => p.1 = key) = some (key, none)) :
    cachedDependentsFor o key = (o, none) ∨
    cachedDependentsFor o key =
      ({ o with cachedep := (key, none) :: o.cachedep }, none) := by
  unfold cachedDependentsFor
  rcases hfind with hf | hf <;> rw [hf]
  · unfold computeCachedDependentsFor
    dsimp only
    rw [hdeps, depLookup_nil]
    exact Or.inr rfl
  · exact Or.inl rfl

theorem clearStep_nodeps (o : Obj) (key : String)
    (hdeps : o.dependents = [])
    (hfind : o.cachedep.find? (fun p => p.1 = key) = none ∨
      o.cachedep.find? (fun p => p.1 = key) = some (key, none)) :
    clearCachedDependentsStep o key = o ∨
    clearCachedDependentsStep o key =
      { o with cachedep := (key, none) :: o.cachedep } := by
  unfold clearCachedDependentsStep
  split
  · rcases cachedDependentsFor_nodeps o key hdeps hfind with hc | hc <;>
      rw [hc]
    · exact Or.inl rfl
    · exact Or.inr rfl
  · exact Or.inl rfl

theorem expandChanges_nodeps (fuel : Nat) (o : Obj) (cs : List String)
    (idx : Nat) (hdeps : o.dependents = []) :
    expandChanges o fuel cs idx = (o, cs) := by
  induction fuel generalizing idx with
  | zero => rfl
  | succ f ih =>
      unfold expandChanges
      split
      · rw [hdeps, depLookup_nil]
        simp only [List.isEmpty_nil, ite_true]
        exact ih (idx + 1)
      · rfl

theorem notify_nodeps_frame (o : Obj) (k : Option String)
    (hdeps : o.dependents = []) :
    (notifyPropertyObservers o k).1.props = o.props ∧
    (notifyPropertyObservers o k).1.cache = o.cache ∧
    (notifyPropertyObservers o k).1.dependents = [] ∧
    (notifyPropertyObservers o k).1.cachedep = o.cachedep := by
  unfold notifyPropertyObservers notifySetup
  dsimp only
  split
  · rw [expandChanges_nodeps _ _ _ _ (by exact hdeps)]
    dsimp only
    refine ⟨by simp, by simp, by simpa using hdeps, by simp⟩
  · exact ⟨rfl, rfl, hdeps, rfl⟩


theorem pdcClear_keep_nodeps (o : Obj) (key : String)
    (hdeps : o.dependents = [])
    (hfind : o.cachedep.find? (fun p => p.1 = key) = none ∨
      o.cachedep.find? (fun p => p.1 = key) = some (key, none)) :
    pdcClearCaches o key true = o ∨
    pdcClearCaches o key true =
      { o with cachedep := (key, none) :: o.cachedep } := by
  unfold pdcClearCaches
  split
  · dsimp only
    rw [pdcOwnClear_keep]
    rcases cachedDependentsFor_nodeps o key hdeps hfind with hc | hc <;>
      rw [hc]
    · exact Or.inl rfl
    · exact Or.inr rfl
  · exact Or.inl rfl

theorem find_cons_self (cd : List (String × Option (List Desc)))
    (key : String) :
    ((key, (none : Option (List Desc))) :: cd).find? (fun p => p.1 = key) =
      some (key, none) :=
  List.find?_cons_of_pos _ (by simp)

theorem pdc_keep_nodeps (o : Obj) (key : String)
    (hdeps : o.dependents = [])
    (hfind : o.cachedep.find? (fun p => p.1 = key) = none ∨
      o.cachedep.find? (fun p => p.1 = key) = some (key, none)) :
    (propertyDidChange o key true).1.props = o.props ∧
    (propertyDidChange o key true).1.cache = o.cache ∧
    (propertyDidChange o key true).1.dependents = [] ∧
    ((propertyDidChange o key true).1.cachedep.find?
        (fun p => p.1 = key) = none ∨
      (propertyDidChange o key true).1.cachedep.find?
        (fun p => p.1 = key) = some (key, none)) := by
  unfold propertyDidChange
  dsimp only
  rcases pdcClear_keep_nodeps { o with revision := o.revision + 1 } key
      (by exact hdeps) (by exact hfind) with hc | hc <;> rw [hc]
  · split
    · exact ⟨rfl, rfl, hdeps, hfind⟩
    · obtain ⟨n1, n2, n3, n4⟩ := notify_nodeps_frame
        { o with revision := o.revision + 1 } (some key) (by exact hdeps)
      refine ⟨?_, ?_, n3, ?_⟩
      · rw [n1]
      · rw [n2]
      · rw [n4]
        exact hfind
  · split
    · refine ⟨rfl, rfl, hdeps, Or.inr ?_⟩
      exact find_cons_self o.cachedep key
    · obtain ⟨n1, n2, n3, n4⟩ := notify_nodeps_frame
        { { o with revision := o.revision + 1 } with
          cachedep := (key, none) :: { o with revision := o.revision + 1 }.cachedep }
        (some key) (by exact hdeps)
      refine ⟨?_, ?_, n3, Or.inr ?_⟩
      · rw [n1]
      · rw [n2]
      · rw [n4]
        exact find_cons_self o.cachedep key


theorem cacheGet_congr (a b : Obj) (h : a.cache = b.cache) (k : String) :
    a.cacheGet k = b.cacheGet k := by
  unfold Obj.cacheGet
  rw [h]

theorem descr_write_pdc (X : Obj) (key : String) (d : Desc) (v : JSVal)
    (hdeps : X.dependents = [])
    (hfind : X.cachedep.find? (fun p => p.1 = key) = none ∨
      X.cachedep.find? (fun p => p.1 = key) = some (key, none))
    (hck : d.cacheKey ≠ d.lastSetValueKey) :
    (propertyDidChange
        (if d.isCacheable = true then
          ((X.ensureCache).cacheSet d.lastSetValueKey v).cacheSet d.cacheKey
            (d.fn key v)
        else (X.ensureCache).cacheSet d.lastSetValueKey v) key true).1.cacheGet
        d.lastSetValueKey = v ∧
    (d.isCacheable = true →
      (propertyDidChange
        (if d.isCacheable = true then
          ((X.ensureCache).cacheSet d.lastSetValueKey v).cacheSet d.cacheKey
            (d.fn key v)
        else (X.ensureCache).cacheSet d.lastSetValueKey v) key true).1.cacheGet
        d.cacheKey = d.fn key v) ∧
    (propertyDidChange
        (if d.isCacheable = true then
          ((X.ensureCache).cacheSet d.lastSetValueKey v).cacheSet d.cacheKey
            (d.fn key v)
        else (X.ensureCache).cacheSet d.lastSetValueKey v) key true).1.props
      = X.props ∧
    (propertyDidChange
        (if d.isCacheable = true then
          ((X.ensureCache).cacheSet d.lastSetValueKey v).cacheSet d.cacheKey
            (d.fn key v)
        else (X.ensureCache).cacheSet d.lastSetValueKey v) key true).1.dependents
      = [] ∧
    ((propertyDidChange
        (if d.isCacheable = true then
          ((X.ensureCache).cacheSet d.lastSetValueKey v).cacheSet d.cacheKey
            (d.fn key v)
        else (X.ensureCache).cacheSet d.lastSetValueKey v) key true).1.cachedep.find?
        (fun p => p.1 = key) = none ∨
      (propertyDidChange
        (if d.isCacheable = true then
          ((X.ensureCache).cacheSet d.lastSetValueKey v).cacheSet d.cacheKey
            (d.fn key v)
        else (X.ensureCache).cacheSet d.lastSetValueKey v) key true).1.cachedep.find?
        (fun p => p.1 = key) = some (key, none)) ∧
    (propertyDidChange
        (if d.isCacheable = true then
          ((X.ensureCache).cacheSet d.lastSetValueKey v).cacheSet d.cacheKey
            (d.fn key v)
        else (X.ensureCache).cacheSet d.lastSetValueKey v) key true).1.cache.isSome
      = true := by
  by_cases hca : d.isCacheable = true
  · rw [if_pos hca]
    obtain ⟨p1, p2, p3, p4⟩ := pdc_keep_nodeps
      (((X.ensureCache).cacheSet d.lastSetValueKey v).cacheSet d.cacheKey
        (d.fn key v)) key (by simpa using hdeps) (by simpa using hfind)
    refine ⟨?_, fun _ => ?_, ?_, p3, p4, ?_⟩
    · rw [cacheGet_congr _ _ p2]
      rw [cacheSet_cacheGet_ne _ _ _ _ (Ne.symm hck)]
      exact cacheSet_cacheGet_self _ _ _
    · rw [cacheGet_congr _ _ p2]
      exact cacheSet_cacheGet_self _ _ _
    · rw [p1]
      simp
    · rw [p2]
      simp
  · rw [if_neg hca]
    obtain ⟨p1, p2, p3, p4⟩ := pdc_keep_nodeps
      ((X.ensureCache).cacheSet d.lastSetValueKey v) key
      (by simpa using hdeps) (by simpa using hfind)
    refine ⟨?_, fun h => absurd h hca, ?_, p3, p4, ?_⟩
    · rw [cacheGet_congr _ _ p2]
      exact cacheSet_cacheGet_self _ _ _
    · rw [p1]
      simp
    · rw [p2]
      simp


theorem cacheGet_cachedep (o : Obj) (cd : List (String × Option (List Desc)))
    (k : String) : ({ o with cachedep := cd } : Obj).cacheGet k = o.cacheGet k :=
  rfl

theorem set_descr_skip (o : Obj) (key : String) (d : Desc) (v : JSVal)
    (hp : o.props key = .descr d)
    (hncond : ¬(d.isVolatile = true ∨
      (clearCachedDependentsStep o key).cache.isNone = true ∨
      (clearCachedDependentsStep o key).cacheGet d.lastSetValueKey ≠ v)) :
    set o key v = (clearCachedDependentsStep o key, []) := by
  have hp2 : (clearCachedDependentsStep o key).props key = .descr d := by
    simp [hp]
  unfold set
  dsimp only
  simp only [hp2]
  rw [if_neg hncond]

theorem set_descr_invoke (o : Obj) (key : String) (d : Desc) (v : JSVal)
    (hp : o.props key = .descr d)
    (hdeps : o.dependents = [])
    (hfind : o.cachedep.find? (fun p => p.1 = key) = none ∨
      o.cachedep.find? (fun p => p.1 = key) = some (key, none))
    (hck : d.cacheKey ≠ d.lastSetValueKey)
    (hcond : d.isVolatile = true ∨ o.cache = none ∨
      o.cacheGet d.lastSetValueKey ≠ v) :
    (set o key v).2.head? = some (.descrInvoke key v) ∧
    (set o key v).1.cacheGet d.lastSetValueKey = v ∧
    (d.isCacheable = true → (set o key v).1.cacheGet d.cacheKey = d.fn key v) ∧
    (set o key v).1.props = o.props ∧
    (set o key v).1.dependents = [] ∧
    ((set o key v).1.cachedep.find? (fun p => p.1 = key) = none ∨
      (set o key v).1.cachedep.find? (fun p => p.1 = key) = some (key, none)) ∧
    (set o key v).1.cache.isSome = true := by
  have hcondX : d.isVolatile = true ∨ o.cache.isNone = true ∨
      o.cacheGet d.lastSetValueKey ≠ v := by
    rcases hcond with h | h | h
    · exact Or.inl h
    · right
      left
      rw [h]
      rfl
    · exact Or.inr (Or.inr h)
  rcases clearStep_nodeps o key hdeps hfind with h1 | h1
  · obtain ⟨q1, q2, q3, q4, q5, q6⟩ := descr_write_pdc o key d v hdeps hfind hck
    unfold set
    dsimp only [propertyWillChange]
    rw [h1]
    simp only [hp]
    rw [if_pos hcondX]
    exact ⟨rfl, q1, q2, q3, q4, q5, q6⟩
  · obtain ⟨q1, q2, q3, q4, q5, q6⟩ := descr_write_pdc
      { o with cachedep := (key, none) :: o.cachedep } key d v (by exact hdeps)
      (Or.inr (find_cons_self o.cachedep key)) hck
    unfold set
    dsimp only [propertyWillChange]
    rw [h1]
    dsimp only
    simp only [hp]
    rw [cacheGet_cachedep]
    rw [if_pos hcondX]
    exact ⟨rfl, q1, q2, q3, q4, q5, q6⟩


theorem set_descr_skip_frame (o : Obj) (key : String) (d : Desc) (v : JSVal)
    (hp : o.props key = .descr d)
    (hdeps : o.dependents = [])
    (hfind : o.cachedep.find? (fun p => p.1 = key) = none ∨
      o.cachedep.find? (fun p => p.1 = key) = some (key, none))
    (hvol : d.isVolatile = false)
    (hcache : o.cache.isSome = true)
    (hlast : o.cacheGet d.lastSetValueKey = v) :
    (set o key v).2 = [] := by
  have hn : ¬(d.isVolatile = true ∨
      (clearCachedDependentsStep o key).cache.isNone = true ∨
      (clearCachedDependentsStep o key).cacheGet d.lastSetValueKey ≠ v) := by
    rcases clearStep_nodeps o key hdeps hfind with h1 | h1 <;> rw [h1]
    · rintro (h | h | h)
      · rw [hvol] at h
        exact Bool.noConfusion h
      · rcases hc : o.cache with _ | cc
        · rw [hc] at hcache
          exact Bool.noConfusion hcache
        · rw [hc] at h
          exact Bool.noConfusion h
      · exact h hlast
    · rw [cacheGet_cachedep]
      rintro (h | h | h)
      · rw [hvol] at h
        exact Bool.noConfusion h
      · dsimp only at h
        rcases hc : o.cache with _ | cc
        · rw [hc] at hcache
          exact Bool.noConfusion hcache
        · rw [hc] at h
          exact Bool.noConfusion h
      · exact h hlast
  rw [set_descr_skip o key d v hp hn]

/-- C7.  For a key holding a computed-property descriptor (on an object
with no dependent keys and no stale cached-dependents memo for the key, so
the dependent-cache bookkeeping is inert): a `set(key, v1)` whose value is
not the recorded last-set value (or with the cache still absent, or with
the descriptor volatile) invokes the descriptor function with `(key, v1)`
(observable.js:295–300), records `v1` under `lastSetValueKey`
(observable.js:298) and — when `isCacheable` — stores the returned value in
the cache under the descriptor's `cacheKey` (observable.js:303); a second
`set` of the *same* value does not invoke the function when the descriptor
is not volatile, while a second `set` of a different value (or any second
`set` on a volatile descriptor) invokes it again and re-caches the result. -/
theorem descriptor_set_invocation (o : Obj) (key : String) (d : Desc)
    (v1 v2 : JSVal) (hp : o.props key = .descr d)
    (hdeps : o.dependents = [])
    (hfind : o.cachedep.find? (fun p => p.1 = key) = none ∨
      o.cachedep.find? (fun p => p.1 = key) = some (key, none))
    (hck : d.cacheKey ≠ d.lastSetValueKey)
    (hfirst : d.isVolatile = true ∨ o.cache = none ∨
      o.cacheGet d.lastSetValueKey ≠ v1) :
    (set o key v1).2.head? = some (.descrInvoke key v1) ∧
    (set o key v1).1.cacheGet d.lastSetValueKey = v1 ∧
    (d.isCacheable = true →
      (set o key v1).1.cacheGet d.cacheKey = d.fn key v1) ∧
    (d.isVolatile = false → (set (set o key v1).1 key v1).2 = []) ∧
    ((d.isVolatile = true ∨ v2 ≠ v1) →
      (set (set o key v1).1 key v2).2.head? = some (.descrInvoke key v2) ∧
      (d.isCacheable = true →
        (set (set o key v1).1 key v2).1.cacheGet d.cacheKey = d.fn key v2)) := by
  obtain ⟨s1, s2, s3, s4, s5, s6, s7⟩ :=
    set_descr_invoke o key d v1 hp hdeps hfind hck hfirst
  refine ⟨s1, s2, s3, ?_, ?_⟩
  · intro hvol
    exact set_descr_skip_frame (set o key v1).1 key d v1
      (by rw [s4]; exact hp) s5 s6 hvol s7 s2
  · intro hd
    have hcond2 : d.isVolatile = true ∨ (set o key v1).1.cache = none ∨
        (set o key v1).1.cacheGet d.lastSetValueKey ≠ v2 := by
      rcases hd with h | h
      · exact Or.inl h
      · right
        right
        rw [s2]
        intro he
        exact h he.symm
    obtain ⟨t1, t2, t3, t4, t5, t6, t7⟩ :=
      set_descr_invoke (set o key v1).1 key d v2
        (by rw [s4]; exact hp) s5 s6 hck hcond2
    exact ⟨t1, t3⟩

/-- Witness for the C7 theorem on `echoDescObj` (cacheable, non-volatile
echo descriptor at `"p"`, empty cache): setting `1` then `2` invokes the
descriptor both times, and the second result is cached under `"ck"`. -/
theorem descriptor_set_invocation_witness :
    echoDescObj.props "p" = .descr echoDesc ∧
    echoDescObj.dependents = [] ∧ echoDescObj.cache = none ∧
    (set (set echoDescObj "p" (.num 1)).1 "p" (.num 2)).2.head?
      = some (.descrInvoke "p" (.num 2)) ∧
    (set (set echoDescObj "p" (.num 1)).1 "p" (.num 2)).1.cacheGet "ck"
      = .num 2 :=
  have h := (descriptor_set_invocation echoDescObj "p" echoDesc (.num 1)
    (.num 2) rfl rfl (Or.inl rfl) (by decide)
    (Or.inr (Or.inl rfl))).2.2.2.2 (Or.inr (by decide))
  ⟨rfl, rfl, rfl, h.1, h.2 rfl⟩


theorem notifyMembers_no_skip (key : String) (rev : Nat) (ms : List Member)
    (h : ∀ m ∈ ms, m.lastNotified ≠ rev) :
    (notifyMembers key rev ms).2 =
      ms.map fun m => Event.memberFire key m.target m.method m.context rev := by
  rw [notifyMembers_snd]
  have : ms.filter (fun m => m.lastNotified != rev) = ms :=
    List.filter_eq_self.mpr fun m hm => by
      simpa using h m hm
  rw [this]

theorem processKey_segment (o : Obj) (key : String) (rev : Nat)
    (h : ∀ m ∈ o.observers key, m.lastNotified ≠ rev) :
    (processKey o key rev).2 = orderedKeySegment o rev key := by
  rw [processKey_snd, notifyMembers_no_skip _ _ _ h]
  rfl

theorem starMap_invariant (k2 key : String) (rev : Nat) (ms : List Member) :
    ((notifyMembers key rev ms).1).map
        (fun m => Event.starFire k2 m.target m.method) =
      ms.map fun m => Event.starFire k2 m.target m.method := by
  rw [notifyMembers_fst, List.map_map]
  apply List.map_congr_left
  intro m _
  by_cases h : m.lastNotified = rev <;> simp [h]

theorem orderedKeySegment_processKey (o : Obj) (key k2 : String)
    (rev rev2 : Nat) (hne : k2 ≠ key) :
    orderedKeySegment (processKey o key rev).1 rev2 k2 =
      orderedKeySegment o rev2 k2 := by
  unfold orderedKeySegment
  rw [processKey_observers_ne o key rev k2 hne]
  by_cases hk : k2 = "*"
  · subst hk
    rfl
  · by_cases hs : ("*" : String) = key
    · subst hs
      rw [processKey_observers_self]
      rw [starMap_invariant]
      rfl
    · rw [processKey_observers_ne o key rev "*" hs]
      rfl


theorem flatMap_segment_processKey (o : Obj) (key : String) (rev rev2 : Nat)
    (l : List String) (hl : ∀ x ∈ l, x ≠ key) :
    l.flatMap (orderedKeySegment (processKey o key rev).1 rev2) =
      l.flatMap (orderedKeySegment o rev2) := by
  induction l with
  | nil => rfl
  | cons x rest ih =>
      rw [List.flatMap_cons, List.flatMap_cons]
      rw [orderedKeySegment_processKey o key x rev rev2
        (hl x (List.mem_cons_self x rest))]
      rw [ih fun y hy => hl y (List.mem_cons_of_mem x hy)]

theorem fanoutAux_ordered (rev : Nat) (l : List String) (o : Obj)
    (hnd : l.Nodup)
    (hslots : ∀ k ∈ l, ∀ mem ∈ o.observers k, mem.lastNotified ≠ rev) :
    (fanoutAux rev o l).2 = l.flatMap (orderedKeySegment o rev) := by
  induction l generalizing o with
  | nil => rfl
  | cons k rest ih =>
      have hk : k ∉ rest := (List.nodup_cons.1 hnd).1
      have hnd2 := (List.nodup_cons.1 hnd).2
      unfold fanoutAux
      dsimp only
      rw [List.flatMap_cons]
      have h1 : (processKey o k rev).2 = orderedKeySegment o rev k :=
        processKey_segment o k rev (hslots k (List.mem_cons_self k rest))
      have h2 : (fanoutAux rev (processKey o k rev).1 rest).2 =
          rest.flatMap (orderedKeySegment (processKey o k rev).1 rev) := by
        refine ih (processKey o k rev).1 hnd2 ?_
        intro k2 hk2 mem hmem
        rw [processKey_observers_ne o k rev k2
          (fun he => hk (he ▸ hk2))] at hmem
        exact hslots k2 (List.mem_cons_of_mem _ hk2) mem hmem
      rw [h1, h2]
      rw [flatMap_segment_processKey o k rev rev rest
        (fun x hx he => hk (he ▸ hx))]

/-- C4.  One fan-out pass of `_hub_notifyPropertyObservers` produces
exactly the trace promised by the spec: the pending keys (after the
dependent-key expansion) in LIFO pop order of the changes set, each
emitting — in order — its per-key ObserverSet members in snapshot order
(observable.js:957–974), then the local observers (observable.js:977–991),
then the star observers, skipped when the key is `'*'`
(observable.js:994–1010), then the `propertyObserver` hook
(observable.js:1013–1016).  `orderedKeySegment` / `orderedFanoutTrace` are
written from the claim's words; the theorem equates the trace the embedded
source produces with them.  Hypotheses: the pending keys are distinct (the
source's changes set guarantees this) and no registered member's
`lastNotifiedRevision` already sits at the upcoming pass revision (true of
every reachable state, since slots only ever hold past pass revisions). -/
theorem fanout_pass_order (o : Obj) (okey : Option String)
    (hnd : (o.changes.getD []).Nodup)
    (hslots : ∀ k mem, mem ∈ o.observers k →
      mem.lastNotified ≤ o.propertyRevision) :
    (notifyPropertyObservers o okey).2 =
      if changesNonempty o = true ∨ okey.isSome = true then
        orderedFanoutTrace
          (notifySetup { o with changeLevel := o.changeLevel + 1 } okey).1
          (notifySetup { o with changeLevel := o.changeLevel + 1 } okey).2
          (o.propertyRevision + 1)
      else [] := by
  unfold notifyPropertyObservers
  dsimp only
  by_cases hg : changesNonempty o = true ∨ okey.isSome = true
  · rw [if_pos hg]
    rw [if_pos (show changesNonempty
        { o with changeLevel := o.changeLevel + 1 } = true ∨
        okey.isSome = true from hg)]
    have hrev : (notifySetup { o with changeLevel := o.changeLevel + 1 }
        okey).1.propertyRevision = o.propertyRevision + 1 := by
      rw [notifySetup_propertyRevision]
    rw [hrev]
    rw [fanoutAux_ordered (o.propertyRevision + 1) _ _
      (List.nodup_reverse.mpr
        (notifySetup_nodup { o with changeLevel := o.changeLevel + 1 } okey
          (by exact hnd)))
      ?_]
    · rfl
    · intro k hk mem hmem
      rw [show (notifySetup { o with changeLevel := o.changeLevel + 1 }
          okey).1.observers = o.observers from notifySetup_observers _ _] at hmem
      have := hslots k mem hmem
      omega
  · rw [if_neg hg]
    rw [if_neg (show ¬(changesNonempty
        { o with changeLevel := o.changeLevel + 1 } = true ∨
        okey.isSome = true) from hg)]


/-- Witness for the C4 theorem on `observedObj` with the passed key
`"value"`: the pass trace equals the spec-ordered trace. -/
theorem fanout_pass_order_witness :
    (observedObj.changes.getD []).Nodup ∧
    (notifyPropertyObservers observedObj (some "value")).2 =
      orderedFanoutTrace
        (notifySetup { observedObj with
          changeLevel := observedObj.changeLevel + 1 } (some "value")).1
        (notifySetup { observedObj with
          changeLevel := observedObj.changeLevel + 1 } (some "value")).2
        (observedObj.propertyRevision + 1) := by
  have hnd : (observedObj.changes.getD []).Nodup := List.nodup_nil
  have hslots : ∀ k mem, mem ∈ observedObj.observers k →
      mem.lastNotified ≤ observedObj.propertyRevision := by
    intro k mem hmem
    by_cases hk : k = "value"
    · simp [observedObj, baseObj, hk] at hmem
      subst hmem
      decide
    · simp [observedObj, baseObj, hk] at hmem
  refine ⟨hnd, ?_⟩
  rw [fanout_pass_order observedObj (some "value") hnd hslots]
  rw [if_pos (show changesNonempty observedObj = true ∨
    (some "value").isSome = true from Or.inr rfl)]

end Hub
